import Mathlib

/-!
Verification of the polygraphia classical-cipher library.

The Lean definitions below are a shallow embedding of the Rust sources:
`src/error.rs`, `src/utils/mode.rs`, `src/utils/math.rs`, `src/utils/matrix.rs`,
`src/classic/{caesar,affine,playfair,hill}.rs`.  Text is modelled as
`List Char`; Rust's `u8`/`i32` arithmetic is modelled with `Nat`/`Int`
(overflow cannot occur in the reachable value ranges, as noted at each
definition); fallible functions return `Except PolygraphiaError`.
-/

namespace Polygraphia

/-- Error enum from `src/error.rs`. -/
inductive PolygraphiaError where
  | InvalidInput (msg : String)
  | InvalidKey (msg : String)
  | EncryptionError (msg : String)
  | DecryptionError (msg : String)
  deriving DecidableEq, Repr

/-- `TextMode` from `src/utils/mode.rs`; `default()` is `PreserveAll`. -/
inductive TextMode where
  | AlphaOnly
  | PreserveAll
  deriving DecidableEq, Repr

/-- Rust `char::is_ascii_alphabetic`. -/
def isAsciiAlphabetic (c : Char) : Bool :=
  (97 ≤ c.toNat && c.toNat ≤ 122) || (65 ≤ c.toNat && c.toNat ≤ 90)

/-- Rust `char::is_ascii_uppercase`. -/
def isAsciiUppercase (c : Char) : Bool :=
  65 ≤ c.toNat && c.toNat ≤ 90

/-- Rust `char::to_ascii_lowercase` (adds 0x20 to an ASCII uppercase letter). -/
def toAsciiLowercase (c : Char) : Char :=
  if isAsciiUppercase c then Char.ofNat (c.toNat + 32) else c

/-! ## `src/utils/math.rs` -/

/-- Fuel-indexed form of `math::gcd` (`src/utils/math.rs:3`):
`gcd(a, b) = if b == 0 { a } else { gcd(b, a % b) }`.
The second argument strictly decreases at every recursive call, so `b` units
of fuel always suffice; the fuel-0 fallback is unreachable from `gcd` below. -/
def gcdFuel : Nat → Nat → Nat → Nat
  | 0, a, _ => a
  | fuel + 1, a, b => if b = 0 then a else gcdFuel fuel b (a % b)

/-- `math::gcd` (`src/utils/math.rs:3`): Euclidean recursion, `gcd(a,0) = a`. -/
def gcd (a b : Nat) : Nat := gcdFuel b a b

instance exceptDecidableEq {ε α : Type} [DecidableEq ε] [DecidableEq α] :
    DecidableEq (Except ε α) := fun x y =>
  match x, y with
  | .ok a, .ok b =>
    match decEq a b with
    | isTrue h => isTrue (by rw [h])
    | isFalse h => isFalse (fun hc => by cases hc; exact h rfl)
  | .error a, .error b =>
    match decEq a b with
    | isTrue h => isTrue (by rw [h])
    | isFalse h => isFalse (fun hc => by cases hc; exact h rfl)
  | .ok _, .error _ => isFalse (fun hc => by cases hc)
  | .error _, .ok _ => isFalse (fun hc => by cases hc)

/-- Shape test: the value is an `Err(InvalidInput(_))`. -/
def isInvalidInput {α : Type} : Except PolygraphiaError α → Bool
  | .error (.InvalidInput _) => true
  | _ => false

/-- Shape test: the value is an `Err(InvalidKey(_))`. -/
def isInvalidKey {α : Type} : Except PolygraphiaError α → Bool
  | .error (.InvalidKey _) => true
  | _ => false

/-- `math::are_coprime` (`src/utils/math.rs:7`). -/
def are_coprime (a b : Nat) : Bool :=
  gcd a b == 1

/-- `math::mod_inverse` (`src/utils/math.rs:11`): linear search over `1..m`.
The Rust search computes `a as u16 * i as u16`, which cannot overflow for
`u8` inputs, so plain `Nat` multiplication is a faithful model. -/
def mod_inverse (a m : Nat) : Except PolygraphiaError Nat :=
  if !(are_coprime a m) then
    .error (.InvalidInput s!"Modular inverse does not exist for {a} mod {m} (not coprime)")
  else
    match (List.range' 1 (m - 1)).find? (fun i => a * i % m == 1) with
    | some i => .ok i
    | none => .error (.InvalidInput s!"Failed to compute modular inverse for {a} mod {m}")

/-! ## `src/utils/matrix.rs` -/

/-- The square-matrix type (`src/utils/matrix.rs:5`): flat row-major `i32` data.
`i32` is modelled by `Int`; the spec leaves overflow behaviour out of scope. -/
structure Matrix where
  size : Nat
  data : List Int
  deriving DecidableEq, Repr

/-- `Matrix::new` (`src/utils/matrix.rs:11`). -/
def Matrix.new (size : Nat) (data : List Int) : Except PolygraphiaError Matrix :=
  if data.length ≠ size * size then
    .error (.InvalidInput s!"Matrix data length {data.length} doesn't match size {size}x{size}")
  else
    .ok ⟨size, data⟩

/-- `Matrix::get` (`src/utils/matrix.rs:25`): `data[row * size + col]`.
All reachable reads are in bounds (Rust would abort otherwise), so the
default value of `getD` is never produced. -/
def Matrix.get (M : Matrix) (row col : Nat) : Int :=
  M.data.getD (row * M.size + col) 0

/-- `Matrix::minor` (`src/utils/matrix.rs:58`): delete `skip_row` and
`skip_col`, keeping row-major order.  The Rust loop pushes exactly the
elements of this bind/map, in the same order; the final
`Matrix::new(...).unwrap()` always succeeds there. -/
def Matrix.minor (M : Matrix) (skip_row skip_col : Nat) : Matrix :=
  ⟨M.size - 1,
    ((List.range M.size).filter (fun row => row ≠ skip_row)).flatMap
      (fun row => ((List.range M.size).filter (fun col => col ≠ skip_col)).map
        (fun col => M.get row col))⟩

/-- Fuel-indexed `Matrix::determinant` (`src/utils/matrix.rs:33`): closed
forms for sizes 1, 2, 3; otherwise (size 0 included) Laplace expansion along
row 0.  Each recursive call shrinks the size by one and is only reached at
size ≥ 4, so fuel `size` suffices; the fuel-0 fallback is unreachable from
`Matrix.determinant` below. -/
def Matrix.detFuel : Nat → Matrix → Int
  | 0, _ => 0
  | fuel + 1, M =>
    if M.size = 1 then M.data.getD 0 0
    else if M.size = 2 then M.get 0 0 * M.get 1 1 - M.get 0 1 * M.get 1 0
    else if M.size = 3 then
      M.get 0 0 * (M.get 1 1 * M.get 2 2 - M.get 1 2 * M.get 2 1)
        - M.get 0 1 * (M.get 1 0 * M.get 2 2 - M.get 1 2 * M.get 2 0)
        + M.get 0 2 * (M.get 1 0 * M.get 2 1 - M.get 1 1 * M.get 2 0)
    else
      ((List.range M.size).map (fun col =>
        (if col % 2 = 0 then 1 else -1) * M.get 0 col
          * Matrix.detFuel fuel (M.minor 0 col))).sum

/-- `Matrix::determinant` (`src/utils/matrix.rs:33`). -/
def Matrix.determinant (M : Matrix) : Int := Matrix.detFuel M.size M

/-- `Matrix::adjugate` (`src/utils/matrix.rs:75`): the Rust loop writes
`adj_data[col * size + row] = (-1)^(row+col) * det(minor(row, col))` for every
`(row, col)`; gathered in flat order, block `col` of the result holds the
entries `row = 0..size`, which is the bind/map below. -/
def Matrix.adjugate (M : Matrix) : Matrix :=
  ⟨M.size,
    (List.range M.size).flatMap (fun col =>
      (List.range M.size).map (fun row =>
        (if (row + col) % 2 = 0 then 1 else -1) * (M.minor row col).determinant))⟩

/-- `Matrix::mod_inverse` (`src/utils/matrix.rs:87`).  `det_mod` is
`rem_euclid` of the determinant, hence in `[0, modulus)` for the only modulus
used (26), so the Rust `as u8` casts are value-preserving and `Int.toNat`
models them. -/
def Matrix.mod_inverse (M : Matrix) (modulus : Int) : Except PolygraphiaError Matrix :=
  let det := M.determinant
  let det_mod := det % modulus
  if gcd det_mod.toNat modulus.toNat ≠ 1 then
    .error (.InvalidKey s!"Matrix determinant {det_mod} is not coprime with {modulus}")
  else
    match Polygraphia.mod_inverse det_mod.toNat modulus.toNat with
    | .error e => .error e
    | .ok det_inv =>
      let adj := M.adjugate
      let inv_data := adj.data.map (fun x => (x * (det_inv : Int)) % modulus)
      Matrix.new M.size inv_data

/-- `Matrix::multiply_vector` (`src/utils/matrix.rs:104`): the inner Rust loop
runs over `vec.iter().enumerate().take(size)`, i.e. the first
`min(vec.len(), size)` columns, with no modular reduction. -/
def Matrix.multiply_vector (M : Matrix) (vec : List Int) : List Int :=
  (List.range M.size).map (fun row =>
    ((List.range (min vec.length M.size)).map
      (fun col => M.get row col * vec.getD col 0)).sum)

/-! ## `src/classic/caesar.rs` -/

/-- Caesar state (`src/classic/caesar.rs:6`); `shift` is a `u8`, stored
reduced modulo 26. -/
structure Caesar where
  shift : Nat
  mode : TextMode
  deriving DecidableEq, Repr

/-- `Caesar::with_mode` (`src/classic/caesar.rs:33`): always succeeds,
storing `shift % 26`. -/
def Caesar.with_mode (shift : Nat) (mode : TextMode) : Except PolygraphiaError Caesar :=
  .ok ⟨shift % 26, mode⟩

/-- `Caesar::new` (`src/classic/caesar.rs:12`). -/
def Caesar.new (shift : Nat) : Except PolygraphiaError Caesar :=
  Caesar.with_mode shift TextMode.PreserveAll

/-- `Caesar::set_shift` (`src/classic/caesar.rs:24`). -/
def Caesar.set_shift (c : Caesar) (shift : Nat) : Except PolygraphiaError Caesar :=
  .ok { c with shift := shift % 26 }

/-- `Caesar::set_mode` (`src/classic/caesar.rs:29`). -/
def Caesar.set_mode (c : Caesar) (mode : TextMode) : Caesar :=
  { c with mode := mode }

/-- `Caesar::shift_char` (`src/classic/caesar.rs:40`).  `shift < 26` in every
reachable state, so the `as i8` cast is value-preserving; `rem_euclid 26` is
`Int.emod` by 26. -/
def Caesar.shift_char (s : Caesar) (c : Char) (encrypt : Bool) : Char :=
  if ¬ isAsciiAlphabetic c then c
  else
    let base : Nat := if isAsciiUppercase c then 65 else 97
    let idx : Nat := (toAsciiLowercase c).toNat - 97
    let sh : Int := if encrypt then (s.shift : Int) else -(s.shift : Int)
    let shifted := ((idx : Int) + sh) % 26
    Char.ofNat (base + shifted.toNat)

/-- `Caesar::process_text` (`src/classic/caesar.rs:57`). -/
def Caesar.process_text (s : Caesar) (text : List Char) (encrypt : Bool) : List Char :=
  match s.mode with
  | .AlphaOnly =>
    (text.filter (fun c => isAsciiAlphabetic c)).map (fun c => s.shift_char c encrypt)
  | .PreserveAll =>
    text.map (fun c => if isAsciiAlphabetic c then s.shift_char c encrypt else c)

/-- `<Caesar as Cipher>::encrypt` (`src/classic/caesar.rs:79`). -/
def Caesar.encrypt (s : Caesar) (plaintext : List Char) : Except PolygraphiaError (List Char) :=
  if plaintext.isEmpty then .error (.InvalidInput "Empty plaintext")
  else
    let result := s.process_text plaintext true
    if s.mode = TextMode.AlphaOnly ∧ result.isEmpty then
      .error (.InvalidInput "Plaintext must contain at least one alphabetic character")
    else .ok result

/-- `<Caesar as Cipher>::decrypt` (`src/classic/caesar.rs:94`). -/
def Caesar.decrypt (s : Caesar) (ciphertext : List Char) : Except PolygraphiaError (List Char) :=
  if ciphertext.isEmpty then .error (.InvalidInput "Empty ciphertext")
  else
    let result := s.process_text ciphertext false
    if s.mode = TextMode.AlphaOnly ∧ result.isEmpty then
      .error (.InvalidInput "ciphertext must have at least one alphabetic character")
    else .ok result

/-! ## `src/classic/affine.rs` -/

/-- Affine state (`src/classic/affine.rs:7`). -/
structure Affine where
  shift : Nat
  multiplier : Nat
  inv_multiplier : Nat
  mode : TextMode
  deriving DecidableEq, Repr

/-- `Affine::validate_multiplier` (`src/classic/affine.rs:57`). -/
def Affine.validate_multiplier (multiplier : Nat) : Except PolygraphiaError Unit :=
  if ¬ are_coprime multiplier 26 then
    .error (.InvalidKey (s!"Multiplier {multiplier} must be coprime with 26 (gcd = " ++
      toString (gcd multiplier 26) ++
      "). Valid values: 1, 3, 5, 7, 9, 11, 15, 17, 19, 21, 23, 25"))
  else .ok ()

/-- `Affine::with_mode` (`src/classic/affine.rs:46`). -/
def Affine.with_mode (shift multiplier : Nat) (mode : TextMode) :
    Except PolygraphiaError Affine :=
  match Affine.validate_multiplier multiplier with
  | .error e => .error e
  | .ok _ =>
    match Polygraphia.mod_inverse multiplier 26 with
    | .error e => .error e
    | .ok inv_multiplier => .ok ⟨shift % 26, multiplier, inv_multiplier, mode⟩

/-- `Affine::new` (`src/classic/affine.rs:15`). -/
def Affine.new (shift multiplier : Nat) : Except PolygraphiaError Affine :=
  Affine.with_mode shift multiplier TextMode.PreserveAll

/-- `Affine::set_shift` (`src/classic/affine.rs:31`). -/
def Affine.set_shift (a : Affine) (shift : Nat) : Except PolygraphiaError Affine :=
  .ok { a with shift := shift % 26 }

/-- `Affine::set_multiplier` (`src/classic/affine.rs:36`): validates and
stores the new multiplier; the stored `inv_multiplier` is left unchanged,
exactly as in the source. -/
def Affine.set_multiplier (a : Affine) (multiplier : Nat) : Except PolygraphiaError Affine :=
  match Affine.validate_multiplier multiplier with
  | .error e => .error e
  | .ok _ => .ok { a with multiplier := multiplier }

/-- `Affine::set_mode` (`src/classic/affine.rs:42`). -/
def Affine.set_mode (a : Affine) (mode : TextMode) : Affine :=
  { a with mode := mode }

/-- `Affine::process_char` (`src/classic/affine.rs:68`).  The `u16`/`i16`
casts in the source cannot overflow for `u8` state, so `Nat`/`Int`
arithmetic is faithful. -/
def Affine.process_char (a : Affine) (c : Char) (encrypt : Bool) : Char :=
  if ¬ isAsciiAlphabetic c then c
  else
    let base : Nat := if isAsciiUppercase c then 65 else 97
    let idx : Nat := (toAsciiLowercase c).toNat - 97
    let processed_idx : Nat :=
      if encrypt then (a.multiplier * idx + a.shift) % 26
      else
        let shifted := (((idx : Int) - (a.shift : Int)) % 26).toNat
        a.inv_multiplier * shifted % 26
    Char.ofNat (base + processed_idx)

/-- `Affine::process_text` (`src/classic/affine.rs:85`). -/
def Affine.process_text (a : Affine) (text : List Char) (encrypt : Bool) : List Char :=
  match a.mode with
  | .AlphaOnly =>
    (text.filter (fun c => isAsciiAlphabetic c)).map (fun c => a.process_char c encrypt)
  | .PreserveAll =>
    text.map (fun c => if isAsciiAlphabetic c then a.process_char c encrypt else c)

/-- `<Affine as Cipher>::encrypt` (`src/classic/affine.rs:107`). -/
def Affine.encrypt (a : Affine) (plaintext : List Char) : Except PolygraphiaError (List Char) :=
  if plaintext.isEmpty then .error (.InvalidInput "Empty plaintext")
  else
    let result := a.process_text plaintext true
    if a.mode = TextMode.AlphaOnly ∧ result.isEmpty then
      .error (.InvalidInput "Plaintext must contain at least one alphabetic character")
    else .ok result

/-- `<Affine as Cipher>::decrypt` (`src/classic/affine.rs:122`). -/
def Affine.decrypt (a : Affine) (ciphertext : List Char) : Except PolygraphiaError (List Char) :=
  if ciphertext.isEmpty then .error (.InvalidInput "Empty ciphertext")
  else
    let result := a.process_text ciphertext false
    if a.mode = TextMode.AlphaOnly ∧ result.isEmpty then
      .error (.InvalidInput "ciphertext must have at least one alphabetic character")
    else .ok result

/-! ## `src/classic/playfair.rs` -/

/-- The 25-letter reduced alphabet used by `Playfair::prepare_key`
(`src/classic/playfair.rs:73`). -/
def alphabet25 : List Char := "abcdefghiklmnopqrstuvwxyz".toList

/-- The per-character normalisation used by Playfair: lowercase, fold
'j' into 'i' (`src/classic/playfair.rs:67` and `:97`). -/
def normalizeLetter (c : Char) : Char :=
  let c_lower := toAsciiLowercase c
  if c_lower = 'j' then 'i' else c_lower

/-- Playfair state (`src/classic/playfair.rs:6`): the prepared key and the
5×5 square of letter values; cell `(row, col)` holds `key[5*row+col] - b'a'`. -/
structure Playfair where
  key : List Char
  matrix : Nat → Nat → Nat
  mode : TextMode

/-- `Playfair::prepare_key` (`src/classic/playfair.rs:61`): keep letters,
normalise, de-duplicate preserving first occurrence, then append the missing
letters of the reduced alphabet. -/
def Playfair.prepare_key (key : List Char) : List Char :=
  let unique_chars := key.foldl (fun acc c =>
    if ¬ isAsciiAlphabetic c then acc
    else
      let c_normalized := normalizeLetter c
      if c_normalized ∈ acc then acc else acc ++ [c_normalized]) []
  alphabet25.foldl (fun acc c => if c ∈ acc then acc else acc ++ [c]) unique_chars

/-- `Playfair::generate_matrix` (`src/classic/playfair.rs:81`): the Rust loop
writes `key[i] - b'a'` into cell `(i / 5, i % 5)` of a zero-initialised array;
cell `(row, col)` therefore reads `key[5*row+col] - b'a'`, with 0 (the `getD`
default, `'a'` here) in cells no key character reaches.  The key is always
exactly 25 characters at every call site. -/
def Playfair.generate_matrix (key : List Char) : Nat → Nat → Nat :=
  fun row col => (key.getD (5 * row + col) 'a').toNat - 97

/-- `Playfair::with_mode` (`src/classic/playfair.rs:44`). -/
def Playfair.with_mode (key : List Char) (mode : TextMode) :
    Except PolygraphiaError Playfair :=
  if key.isEmpty then .error (.InvalidKey "Key cannot be empty")
  else
    let prepared_key := Playfair.prepare_key key
    .ok ⟨prepared_key, Playfair.generate_matrix prepared_key, mode⟩

/-- `Playfair::new` (`src/classic/playfair.rs:13`). -/
def Playfair.new (key : List Char) : Except PolygraphiaError Playfair :=
  Playfair.with_mode key TextMode.PreserveAll

/-- `Playfair::set_key` (`src/classic/playfair.rs:29`). -/
def Playfair.set_key (p : Playfair) (key : List Char) : Except PolygraphiaError Playfair :=
  if key.isEmpty then .error (.InvalidKey "Key cannot be empty")
  else
    let k := Playfair.prepare_key key
    .ok { p with key := k, matrix := Playfair.generate_matrix k }

/-- `Playfair::set_mode` (`src/classic/playfair.rs:40`). -/
def Playfair.set_mode (p : Playfair) (mode : TextMode) : Playfair :=
  { p with mode := mode }

/-- The pairing loop of `Playfair::prepare_text`
(`src/classic/playfair.rs:101`-`:116`): the index `i` advances by one each
iteration; at the last character it is pushed alone, and an 'x' is pushed
after a character equal to its successor. -/
def Playfair.prepPairs : List Char → List Char
  | [] => []
  | [c] => [c]
  | c1 :: c2 :: rest =>
    if c1 = c2 then c1 :: 'x' :: Playfair.prepPairs (c2 :: rest)
    else c1 :: Playfair.prepPairs (c2 :: rest)

/-- `Playfair::prepare_text` (`src/classic/playfair.rs:92`). -/
def Playfair.prepare_text (text : List Char) : List Char :=
  let filtered := (text.filter (fun c => isAsciiAlphabetic c)).map normalizeLetter
  let prepared := Playfair.prepPairs filtered
  if prepared.length % 2 = 1 then prepared ++ ['x'] else prepared

/-- `Playfair::get_coordinates` (`src/classic/playfair.rs:123`): row-major
search of the 5×5 square for a cell holding `char_val`. -/
def Playfair.get_coordinates (p : Playfair) (char_val : Nat) :
    Except PolygraphiaError (Nat × Nat) :=
  match ((List.range 5).flatMap (fun row =>
      (List.range 5).map (fun col => (row, col)))).find?
      (fun rc => p.matrix rc.1 rc.2 == char_val) with
  | some rc => .ok rc
  | none =>
    .error (.InvalidInput (s!"Character {Char.ofNat (char_val + 97)} not found in matrix"))

/-- `Playfair::process_pair` (`src/classic/playfair.rs:137`). -/
def Playfair.process_pair (p : Playfair) (pair : List Char) (encrypt : Bool) :
    Except PolygraphiaError (List Char) :=
  if pair.length ≠ 2 then .error (.InvalidInput "Pair must contain exactly 2 characters")
  else
    let char1_val := (pair.getD 0 'a').toNat - 97
    let char2_val := (pair.getD 1 'a').toNat - 97
    match p.get_coordinates char1_val with
    | .error e => .error e
    | .ok (row1, col1) =>
      match p.get_coordinates char2_val with
      | .error e => .error e
      | .ok (row2, col2) =>
        let next :=
          if row1 = row2 then
            let shift : Nat := if encrypt then 1 else 4
            (row1, (col1 + shift) % 5, row2, (col2 + shift) % 5)
          else if col1 = col2 then
            let shift : Nat := if encrypt then 1 else 4
            ((row1 + shift) % 5, col1, (row2 + shift) % 5, col2)
          else
            (row1, col2, row2, col1)
        .ok [Char.ofNat (p.matrix next.1 next.2.1 + 97),
             Char.ofNat (p.matrix next.2.2.1 next.2.2.2 + 97)]

/-- The `chars.chunks(2)` loop of `Playfair::process_text`
(`src/classic/playfair.rs:166`): pairs are processed left to right and the
first error aborts; an odd trailing chunk has length 1. -/
def Playfair.process_chunks (p : Playfair) (l : List Char) (encrypt : Bool) :
    Except PolygraphiaError (List Char) :=
  match l with
  | [] => .ok []
  | [c] =>
    match p.process_pair [c] encrypt with
    | .error e => .error e
    | .ok r => .ok r
  | c1 :: c2 :: rest =>
    match p.process_pair [c1, c2] encrypt with
    | .error e => .error e
    | .ok r =>
      match Playfair.process_chunks p rest encrypt with
      | .error e => .error e
      | .ok rs => .ok (r ++ rs)

/-- `Playfair::process_text` (`src/classic/playfair.rs:162`). -/
def Playfair.process_text (p : Playfair) (text : List Char) (encrypt : Bool) :
    Except PolygraphiaError (List Char) :=
  Playfair.process_chunks p (Playfair.prepare_text text) encrypt

/-- `<Playfair as Cipher>::encrypt` (`src/classic/playfair.rs:175`). -/
def Playfair.encrypt (p : Playfair) (plaintext : List Char) :
    Except PolygraphiaError (List Char) :=
  if plaintext.isEmpty then .error (.InvalidInput "Plaintext cannot be empty")
  else if ¬ plaintext.any (fun c => isAsciiAlphabetic c) then
    .error (.InvalidInput "Plaintext must contain at least one alphabetic character")
  else p.process_text plaintext true

/-- `<Playfair as Cipher>::decrypt` (`src/classic/playfair.rs:189`). -/
def Playfair.decrypt (p : Playfair) (ciphertext : List Char) :
    Except PolygraphiaError (List Char) :=
  if ciphertext.isEmpty then .error (.InvalidInput "Ciphertext cannot be empty")
  else if ¬ ciphertext.any (fun c => isAsciiAlphabetic c) then
    .error (.InvalidInput "Ciphertext must contain at least one alphabetic character")
  else p.process_text ciphertext false

/-! ## `src/classic/hill.rs` -/

/-- Models Rust `(len as f64).sqrt() as usize` (`src/classic/hill.rs:62`):
the integer square root (f64 square root is exact, and the `as usize` cast
truncates, for every length a key string can reach).  A structural fold is
used so that proofs can evaluate it: the result is the largest `k ≤ n` with
`k * k ≤ n`. -/
def isqrt (n : Nat) : Nat :=
  (List.range (n + 1)).foldl (fun acc k => if k * k ≤ n then k else acc) 0

/-- Hill state (`src/classic/hill.rs:6`). -/
structure Hill where
  key : Matrix
  inv_key : Matrix
  key_size : Nat
  mode : TextMode
  deriving DecidableEq, Repr

/-- `Hill::prepare_key` (`src/classic/hill.rs:56`).  The Rust source computes
`(len as f64).sqrt() as usize`, which agrees with `Nat.sqrt` for every length
a `String` key can reach here (f64 is exact far beyond these magnitudes).
`Hill::validate_key` (`src/classic/hill.rs:75`) is the plain call
`matrix.mod_inverse(26)` and is inlined. -/
def Hill.prepare_key (key : List Char) : Except PolygraphiaError (Matrix × Matrix × Nat) :=
  let key_clean := (key.filter (fun c => isAsciiAlphabetic c)).map toAsciiLowercase
  let key_size := isqrt key_clean.length
  if key_size * key_size ≠ key_clean.length then
    .error (.InvalidKey (s!"Key length {key_clean.length} must be a perfect square" ++
      " (4, 9, 16, 25, ...)"))
  else
    let matrix_data : List Int := key_clean.map (fun c => ((c.toNat - 97 : Nat) : Int))
    match Matrix.new key_size matrix_data with
    | .error e => .error e
    | .ok key_matrix =>
      match key_matrix.mod_inverse 26 with
      | .error e => .error e
      | .ok inv_key_matrix => .ok (key_matrix, inv_key_matrix, key_size)

/-- `Hill::with_mode` (`src/classic/hill.rs:46`). -/
def Hill.with_mode (key : List Char) (mode : TextMode) : Except PolygraphiaError Hill :=
  match Hill.prepare_key key with
  | .error e => .error e
  | .ok (key_matrix, inv_key_matrix, key_size) =>
    .ok ⟨key_matrix, inv_key_matrix, key_size, mode⟩

/-- `Hill::new` (`src/classic/hill.rs:14`). -/
def Hill.new (key : List Char) : Except PolygraphiaError Hill :=
  Hill.with_mode key TextMode.PreserveAll

/-- `Hill::set_key` (`src/classic/hill.rs:34`). -/
def Hill.set_key (h : Hill) (key : List Char) : Except PolygraphiaError Hill :=
  match Hill.prepare_key key with
  | .error e => .error e
  | .ok (key_matrix, inv_key_matrix, key_size) =>
    .ok { h with key := key_matrix, inv_key := inv_key_matrix, key_size := key_size }

/-- `Hill::set_mode` (`src/classic/hill.rs:42`). -/
def Hill.set_mode (h : Hill) (mode : TextMode) : Hill :=
  { h with mode := mode }

/-- `Hill::prepare_text` (`src/classic/hill.rs:79`): filter to letters,
lowercase, right-pad with 'x' to a multiple of `key_size`. -/
def Hill.prepare_text (h : Hill) (text : List Char) : List Char :=
  let clean := (text.filter (fun c => isAsciiAlphabetic c)).map toAsciiLowercase
  let remainder := clean.length % h.key_size
  if remainder ≠ 0 then clean ++ List.replicate (h.key_size - remainder) 'x' else clean

/-- `Hill::text_to_vector` (`src/classic/hill.rs:93`). -/
def Hill.text_to_vector (text : List Char) : List Int :=
  text.map (fun c => (((toAsciiLowercase c).toNat - 97 : Nat) : Int))

/-- `Hill::vector_to_text` (`src/classic/hill.rs:99`). -/
def Hill.vector_to_text (vector : List Int) : List Char :=
  vector.map (fun x => Char.ofNat (97 + (x % 26).toNat))

/-- Fuel-indexed model of Rust's `slice::chunks(n)` (used at
`src/classic/hill.rs:114`): consecutive chunks of length `n`, the last one
possibly shorter.  Each step removes `n ≥ 1` elements, so fuel
`vector.length` suffices at the call site below. -/
def chunksFuel {α : Type} : Nat → Nat → List α → List (List α)
  | 0, _, _ => []
  | _ + 1, _, [] => []
  | fuel + 1, n, l => l.take n :: chunksFuel fuel n (l.drop n)

/-- `Hill::process_text` (`src/classic/hill.rs:109`): multiply each chunk by
the key (encrypt) or inverse key (decrypt), reduce mod 26, concatenate. -/
def Hill.process_text (h : Hill) (text : List Char) (encrypt : Bool) : List Char :=
  let prepared := h.prepare_text text
  let vector := Hill.text_to_vector prepared
  let matrix := if encrypt then h.key else h.inv_key
  let result := (chunksFuel vector.length h.key_size vector).flatMap
    (fun chunk => (matrix.multiply_vector chunk).map (fun x => x % 26))
  Hill.vector_to_text result

/-- `<Hill as Cipher>::encrypt` (`src/classic/hill.rs:123`). -/
def Hill.encrypt (h : Hill) (plaintext : List Char) : Except PolygraphiaError (List Char) :=
  if plaintext.isEmpty then .error (.InvalidInput "Plaintext cannot be empty")
  else if ¬ plaintext.any (fun c => isAsciiAlphabetic c) then
    .error (.InvalidInput "Plaintext must contain at least one alphabetic character")
  else .ok (h.process_text plaintext true)

/-- `<Hill as Cipher>::decrypt` (`src/classic/hill.rs:137`). -/
def Hill.decrypt (h : Hill) (ciphertext : List Char) : Except PolygraphiaError (List Char) :=
  if ciphertext.isEmpty then .error (.InvalidInput "Ciphertext cannot be empty")
  else if ¬ ciphertext.any (fun c => isAsciiAlphabetic c) then
    .error (.InvalidInput "Ciphertext must contain at least one alphabetic character")
  else .ok (h.process_text ciphertext false)

/-- Spec-side description (spec section 8) of the expected plaintext after a
Caesar round trip: the input restricted per mode. -/
def filteredPerMode (mode : TextMode) (t : List Char) : List Char :=
  match mode with
  | .AlphaOnly => t.filter (fun c => isAsciiAlphabetic c)
  | .PreserveAll => t

end Polygraphia

/-- The embedded matrix viewed as a Mathlib `Matrix` over `ℤ`, at a stated
dimension (the reference object for the refinement claims). -/
def toMatN (M : Polygraphia.Matrix) (n : Nat) :
    Matrix (Fin n) (Fin n) ℤ := fun i j => M.get i j

/-- Entrywise reduction of an integer matrix into `ZMod 26`. -/
def castMat26 {n : Nat} (A : Matrix (Fin n) (Fin n) ℤ) : Matrix (Fin n) (Fin n) (ZMod 26) :=
  A.map Int.cast

theorem Polygraphia.gcdFuel_eq (fuel a b : Nat) (h : b ≤ fuel) :
    Polygraphia.gcdFuel fuel a b = Nat.gcd b a := by
  induction fuel generalizing a b with
  | zero =>
    have : b = 0 := by omega
    subst this
    simp [Polygraphia.gcdFuel, Nat.gcd_zero_left]
  | succ f ih =>
    rw [Polygraphia.gcdFuel]
    split
    · next h0 => subst h0; simp [Nat.gcd_zero_left]
    · next h0 =>
      have hlt : a % b < b := Nat.mod_lt a (Nat.pos_of_ne_zero h0)
      rw [ih b (a % b) (by omega)]
      exact (Nat.gcd_rec b a).symm

theorem Polygraphia.gcd_eq_nat_gcd (a b : Nat) : Polygraphia.gcd a b = Nat.gcd a b :=
  (Polygraphia.gcdFuel_eq b a b (Nat.le_refl b)).trans (Nat.gcd_comm b a)

theorem Polygraphia.mod_inverse_err (a m : Nat) (h : Polygraphia.gcd a m ≠ 1) :
    Polygraphia.isInvalidInput (Polygraphia.mod_inverse a m) = true := by
  rw [Polygraphia.mod_inverse]
  have : Polygraphia.are_coprime a m = false := by
    simp [Polygraphia.are_coprime, h]
  rw [this]
  rfl

theorem Polygraphia.mod_inverse_ok (a m : Nat) (h : Polygraphia.gcd a m = 1) (hm : 2 ≤ m) :
    ∃ i, Polygraphia.mod_inverse a m = .ok i ∧ 1 ≤ i ∧ i < m ∧ a * i % m = 1 ∧
      ∀ j, 1 ≤ j → j < m → a * j % m = 1 → j = i := by
  have hcop : Nat.Coprime a m := by
    rw [Nat.Coprime, ← Polygraphia.gcd_eq_nat_gcd, h]
  obtain ⟨b, hb⟩ := Nat.exists_mul_emod_eq_one_of_coprime hcop (by omega)
  -- normalise the witness into [1, m)
  set b' := b % m with hb'
  have hmpos : 0 < m := by omega
  have hb'lt : b' < m := Nat.mod_lt _ hmpos
  have hb'prop : a * b' % m = 1 := by
    have hmod : a * b' ≡ a * b [MOD m] := Nat.ModEq.mul_left a (Nat.mod_modEq b m)
    unfold Nat.ModEq at hmod
    rw [hmod, hb]
  have hb'pos : 1 ≤ b' := by
    rcases Nat.eq_zero_or_pos b' with h0 | h1
    · rw [h0, Nat.mul_zero, Nat.zero_mod] at hb'prop; omega
    · exact h1
  have hmem : b' ∈ List.range' 1 (m - 1) := by
    rw [List.mem_range']
    exact ⟨b' - 1, by omega, by omega⟩
  -- the search finds some element
  have hdec : ∀ x, (fun i => a * i % m == 1) x = true ↔ a * x % m = 1 := by
    intro x; simp
  have hsome : ∃ i, (List.range' 1 (m - 1)).find? (fun i => a * i % m == 1) = some i := by
    rcases hfind : (List.range' 1 (m - 1)).find? (fun i => a * i % m == 1) with _ | i
    · exfalso
      have := List.find?_eq_none.mp hfind b' hmem
      rw [hdec] at this
      exact this hb'prop
    · exact ⟨i, rfl⟩
  obtain ⟨i, hi⟩ := hsome
  have hip : a * i % m = 1 := by
    have := List.find?_some hi
    rwa [hdec] at this
  have himem : i ∈ List.range' 1 (m - 1) := List.mem_of_find?_eq_some hi
  rw [List.mem_range'] at himem
  obtain ⟨k, hk, hke⟩ := himem
  refine ⟨i, ?_, by omega, by omega, hip, ?_⟩
  · rw [Polygraphia.mod_inverse]
    have : Polygraphia.are_coprime a m = true := by simp [Polygraphia.are_coprime, h]
    rw [this]
    simp [hi]
  · intro j hj1 hjm hjp
    -- both i and j are inverses of a, hence congruent, hence equal below m
    have h1m : 1 % m = 1 := Nat.mod_eq_of_lt (by omega)
    have hi' : a * i ≡ 1 [MOD m] := by
      unfold Nat.ModEq; rw [hip, h1m]
    have hj' : a * j ≡ 1 [MOD m] := by
      unfold Nat.ModEq; rw [hjp, h1m]
    have : j ≡ i [MOD m] := by
      calc j = j * 1 := by ring
      _ ≡ j * (a * i) [MOD m] := (Nat.ModEq.mul_left j hi').symm
      _ = (a * j) * i := by ring
      _ ≡ 1 * i [MOD m] := Nat.ModEq.mul_right i hj'
      _ = i := by ring
    have := this
    unfold Nat.ModEq at this
    rw [Nat.mod_eq_of_lt hjm, Nat.mod_eq_of_lt (by omega : i < m)] at this
    exact this

/-- C7: `mod_inverse(a, m)` fails with `InvalidInput` whenever `gcd(a, m) ≠ 1`;
and for every `a`, `m` with `gcd(a, m) = 1` and `m ≥ 2` it returns the unique
`i ∈ [1, m)` with `a·i ≡ 1 (mod m)`. -/
theorem mod_inverse_correct (a m : Nat) :
    (Polygraphia.gcd a m ≠ 1 →
      Polygraphia.isInvalidInput (Polygraphia.mod_inverse a m) = true) ∧
    (Polygraphia.gcd a m = 1 → 2 ≤ m →
      ∃ i, Polygraphia.mod_inverse a m = .ok i ∧ 1 ≤ i ∧ i < m ∧ a * i % m = 1 ∧
        ∀ j, 1 ≤ j → j < m → a * j % m = 1 → j = i) :=
  ⟨Polygraphia.mod_inverse_err a m, Polygraphia.mod_inverse_ok a m⟩

/-- Witness for `mod_inverse_correct` at `a = 3`, `m = 26`. -/
theorem mod_inverse_correct_witness :
    Polygraphia.gcd 3 26 = 1 ∧ 2 ≤ 26 ∧
      (∃ i, Polygraphia.mod_inverse 3 26 = .ok i ∧ 1 ≤ i ∧ i < 26 ∧ 3 * i % 26 = 1 ∧
        ∀ j, 1 ≤ j → j < 26 → 3 * j % 26 = 1 → j = i) :=
  ⟨by decide, by decide, (mod_inverse_correct 3 26).2 (by decide) (by decide)⟩

/-- C1 evidence: the claimed invariant `multiplier * inv_multiplier ≡ 1 (mod 26)`
is broken by `Affine::set_multiplier`, which validates and stores the new
multiplier but leaves the stored inverse stale: constructing with multiplier 3
(inverse 9) and then setting multiplier 5 leaves `5 * 9 % 26 = 19 ≠ 1`. -/
theorem affine_set_multiplier_stale_inverse :
    Polygraphia.Affine.new 0 3 =
      .ok ⟨0, 3, 9, Polygraphia.TextMode.PreserveAll⟩ ∧
    Polygraphia.Affine.set_multiplier ⟨0, 3, 9, Polygraphia.TextMode.PreserveAll⟩ 5 =
      .ok ⟨0, 5, 9, Polygraphia.TextMode.PreserveAll⟩ ∧
    5 * 9 % 26 = 19 ∧ (19 : Nat) ≠ 1 := by
  refine ⟨by decide, by decide, by decide, by decide⟩

/-- C6: for the Hill cipher with key "hill" (matrix [[7,8],[11,11]]),
`decrypt (encrypt "help")` returns "help"; `encrypt "cat"` pads the prepared
text to "catx", the ciphertext has length exactly 4, and decrypting it
returns exactly "catx". -/
theorem hill_concrete_roundtrip :
    Polygraphia.Hill.new "hill".toList =
      .ok ⟨⟨2, [7, 8, 11, 11]⟩, ⟨2, [25, 22, 1, 23]⟩, 2,
        Polygraphia.TextMode.PreserveAll⟩ ∧
    Polygraphia.Hill.encrypt
        ⟨⟨2, [7, 8, 11, 11]⟩, ⟨2, [25, 22, 1, 23]⟩, 2, Polygraphia.TextMode.PreserveAll⟩
        "help".toList = .ok "drpa".toList ∧
    Polygraphia.Hill.decrypt
        ⟨⟨2, [7, 8, 11, 11]⟩, ⟨2, [25, 22, 1, 23]⟩, 2, Polygraphia.TextMode.PreserveAll⟩
        "drpa".toList = .ok "help".toList ∧
    Polygraphia.Hill.prepare_text
        ⟨⟨2, [7, 8, 11, 11]⟩, ⟨2, [25, 22, 1, 23]⟩, 2, Polygraphia.TextMode.PreserveAll⟩
        "cat".toList = "catx".toList ∧
    Polygraphia.Hill.encrypt
        ⟨⟨2, [7, 8, 11, 11]⟩, ⟨2, [25, 22, 1, 23]⟩, 2, Polygraphia.TextMode.PreserveAll⟩
        "cat".toList = .ok "owfu".toList ∧
    "owfu".toList.length = 4 ∧
    Polygraphia.Hill.decrypt
        ⟨⟨2, [7, 8, 11, 11]⟩, ⟨2, [25, 22, 1, 23]⟩, 2, Polygraphia.TextMode.PreserveAll⟩
        "owfu".toList = .ok "catx".toList := by
  refine ⟨by decide, by decide, by decide, by decide, by decide, by decide, by decide⟩

/-- C2 counterexample: `prepare_text` does not pass an adjacent identical
'x','x' pair through as-is; it doubles it like any other repeated letter,
so `prepare_text "xx" = "xxxx" ≠ "xx"`. -/
theorem prepare_text_xx_counterexample :
    Polygraphia.Playfair.prepare_text "xx".toList = "xxxx".toList ∧
    "xxxx".toList ≠ "xx".toList := by
  refine ⟨by decide, by decide⟩

theorem Polygraphia.prepPairs_head (c : Char) (l : List Char) :
    ∃ t, Polygraphia.Playfair.prepPairs (c :: l) = c :: t := by
  cases l with
  | nil => exact ⟨[], rfl⟩
  | cons c2 rest =>
    rw [Polygraphia.Playfair.prepPairs]
    split
    · exact ⟨_, rfl⟩
    · exact ⟨_, rfl⟩

theorem Polygraphia.prepPairs_chain (l : List Char) :
    List.Chain' (fun a b => a = b → a = 'x') (Polygraphia.Playfair.prepPairs l) := by
  induction l using Polygraphia.Playfair.prepPairs.induct with
  | case1 => simp [Polygraphia.Playfair.prepPairs]
  | case2 c => simp [Polygraphia.Playfair.prepPairs]
  | case3 c2 rest ih =>
    rw [Polygraphia.Playfair.prepPairs, if_pos rfl]
    obtain ⟨t, ht⟩ := Polygraphia.prepPairs_head c2 rest
    rw [ht] at ih ⊢
    exact List.chain'_cons.mpr ⟨fun h => h,
      List.chain'_cons.mpr ⟨fun _ => rfl, ih⟩⟩
  | case4 c1 c2 rest hne ih =>
    rw [Polygraphia.Playfair.prepPairs, if_neg hne]
    obtain ⟨t, ht⟩ := Polygraphia.prepPairs_head c2 rest
    rw [ht] at ih ⊢
    exact List.chain'_cons.mpr ⟨fun h => absurd h hne, ih⟩

theorem Polygraphia.prepare_text_chain (t : List Char) :
    List.Chain' (fun a b => a = b → a = 'x') (Polygraphia.Playfair.prepare_text t) := by
  unfold Polygraphia.Playfair.prepare_text
  dsimp only
  split
  · refine List.chain'_append.mpr ⟨Polygraphia.prepPairs_chain _, List.chain'_singleton _, ?_⟩
    intro x hx y hy
    simp only [List.head?_cons, Option.mem_def, Option.some.injEq] at hy
    subst hy
    exact fun h => h
  · exact Polygraphia.prepPairs_chain _

theorem Polygraphia.prepare_text_even (t : List Char) :
    (Polygraphia.Playfair.prepare_text t).length % 2 = 0 := by
  unfold Polygraphia.Playfair.prepare_text
  dsimp only
  split
  · next hodd => simp only [List.length_append, List.length_singleton]; omega
  · next heven => omega

/-- C2 (amended): `prepare_text` doubles an adjacent identical 'x','x' pair
like any other repeated letter (so `prepare_text "xx" = "xxxx"`, not "xx");
the prepared output is an even-length sequence of pairs in which any pair
with two equal letters is the 'x','x' pair. -/
theorem prepare_text_pairs (t : List Char) :
    Polygraphia.Playfair.prepare_text "xx".toList = "xxxx".toList ∧
    (Polygraphia.Playfair.prepare_text t).length % 2 = 0 ∧
    (∀ k : Nat, 2 * k + 1 < (Polygraphia.Playfair.prepare_text t).length →
      (Polygraphia.Playfair.prepare_text t).getD (2 * k) 'a' =
        (Polygraphia.Playfair.prepare_text t).getD (2 * k + 1) 'a' →
      (Polygraphia.Playfair.prepare_text t).getD (2 * k) 'a' = 'x') := by
  refine ⟨by decide, Polygraphia.prepare_text_even t, ?_⟩
  intro k hk heq
  have hchain := Polygraphia.prepare_text_chain t
  rw [List.chain'_iff_get] at hchain
  have h1 : 2 * k < (Polygraphia.Playfair.prepare_text t).length - 1 := by omega
  have := hchain (2 * k) h1
  rw [List.getD_eq_getElem _ _ (by omega), List.getD_eq_getElem _ _ (by omega)] at heq
  rw [List.getD_eq_getElem _ _ (by omega)]
  simp only [List.get_eq_getElem] at this
  exact this heq

/-- Witness for `prepare_text_pairs` at t = "abx" (prepared to "abxx"),
pair index k = 1. -/
theorem prepare_text_pairs_witness :
    2 * 1 + 1 < (Polygraphia.Playfair.prepare_text "abx".toList).length ∧
    (Polygraphia.Playfair.prepare_text "abx".toList).getD (2 * 1) 'a' =
      (Polygraphia.Playfair.prepare_text "abx".toList).getD (2 * 1 + 1) 'a' ∧
    (Polygraphia.Playfair.prepare_text "abx".toList).getD (2 * 1) 'a' = 'x' :=
  ⟨by decide, by decide,
    (prepare_text_pairs "abx".toList).2.2 1 (by decide) (by decide)⟩

theorem Polygraphia.char_toNat_injective {c d : Char} (h : c.toNat = d.toNat) : c = d := by
  apply Char.ext
  apply UInt32.eq_of_toBitVec_eq
  apply BitVec.eq_of_toNat_eq
  exact h

set_option maxRecDepth 10000 in
theorem Polygraphia.toNat_ofNat_fin : ∀ n : Fin 256, (Char.ofNat n.val).toNat = n.val := by
  decide

theorem Polygraphia.toNat_ofNat_small (n : Nat) (h : n < 256) : (Char.ofNat n).toNat = n :=
  Polygraphia.toNat_ofNat_fin ⟨n, h⟩

theorem Polygraphia.alpha_cases {c : Char} (h : Polygraphia.isAsciiAlphabetic c = true) :
    (Polygraphia.isAsciiUppercase c = true ∧ 65 ≤ c.toNat ∧ c.toNat ≤ 90) ∨
    (Polygraphia.isAsciiUppercase c = false ∧ 97 ≤ c.toNat ∧ c.toNat ≤ 122) := by
  unfold Polygraphia.isAsciiAlphabetic at h
  unfold Polygraphia.isAsciiUppercase
  simp only [Bool.or_eq_true, Bool.and_eq_true, decide_eq_true_eq] at h
  rcases h with h | h
  · right
    refine ⟨?_, h.1, h.2⟩
    simp only [Bool.and_eq_false_iff, decide_eq_false_iff_not]
    omega
  · left
    refine ⟨?_, h.1, h.2⟩
    simp only [Bool.and_eq_true, decide_eq_true_eq]
    omega

theorem Polygraphia.toAsciiLowercase_toNat {c : Char} (h : Polygraphia.isAsciiAlphabetic c = true) :
    (Polygraphia.toAsciiLowercase c).toNat =
      (if Polygraphia.isAsciiUppercase c then c.toNat + 32 else c.toNat) := by
  rcases Polygraphia.alpha_cases h with ⟨hu, h1, h2⟩ | ⟨hu, h1, h2⟩
  · unfold Polygraphia.toAsciiLowercase
    rw [if_pos hu, if_pos hu]
    exact Polygraphia.toNat_ofNat_small _ (by omega)
  · unfold Polygraphia.toAsciiLowercase
    rw [if_neg (by simp [hu]), if_neg (by simp [hu])]

theorem Polygraphia.caesar_shift_char_eval_enc (s : Polygraphia.Caesar) (c : Char)
    (h : Polygraphia.isAsciiAlphabetic c = true) :
    s.shift_char c true = Char.ofNat
      ((if Polygraphia.isAsciiUppercase c then 65 else 97) +
        (((((Polygraphia.toAsciiLowercase c).toNat - 97 : Nat) : Int) +
          (s.shift : Int)) % 26).toNat) := by
  unfold Polygraphia.Caesar.shift_char
  rw [if_neg (by simp [h])]
  rfl

theorem Polygraphia.caesar_shift_char_eval_dec (s : Polygraphia.Caesar) (c : Char)
    (h : Polygraphia.isAsciiAlphabetic c = true) :
    s.shift_char c false = Char.ofNat
      ((if Polygraphia.isAsciiUppercase c then 65 else 97) +
        (((((Polygraphia.toAsciiLowercase c).toNat - 97 : Nat) : Int) +
          -(s.shift : Int)) % 26).toNat) := by
  unfold Polygraphia.Caesar.shift_char
  rw [if_neg (by simp [h])]
  rfl

theorem Polygraphia.shift_char_roundtrip (s : Polygraphia.Caesar) (c : Char)
    (h : Polygraphia.isAsciiAlphabetic c = true) :
    s.shift_char (s.shift_char c true) false = c := by
  rcases Polygraphia.alpha_cases h with ⟨hu, h1, h2⟩ | ⟨hu, h1, h2⟩
  · have hlowN : (Polygraphia.toAsciiLowercase c).toNat = c.toNat + 32 := by
      rw [Polygraphia.toAsciiLowercase_toNat h, if_pos hu]
    rw [Polygraphia.caesar_shift_char_eval_enc s c h, if_pos hu, hlowN]
    set m : Nat :=
      ((((c.toNat + 32 - 97 : Nat) : Int) + (s.shift : Int)) % 26).toNat with hm
    have hmlt : m < 26 := by omega
    have ht1 : (Char.ofNat (65 + m)).toNat = 65 + m :=
      Polygraphia.toNat_ofNat_small _ (by omega)
    have ha1 : Polygraphia.isAsciiAlphabetic (Char.ofNat (65 + m)) = true := by
      unfold Polygraphia.isAsciiAlphabetic
      simp only [ht1, Bool.or_eq_true, Bool.and_eq_true, decide_eq_true_eq]
      omega
    have hu1 : Polygraphia.isAsciiUppercase (Char.ofNat (65 + m)) = true := by
      unfold Polygraphia.isAsciiUppercase
      simp only [ht1, Bool.and_eq_true, decide_eq_true_eq]
      omega
    have hlow1 : (Polygraphia.toAsciiLowercase (Char.ofNat (65 + m))).toNat = 65 + m + 32 := by
      rw [Polygraphia.toAsciiLowercase_toNat ha1, if_pos hu1, ht1]
    rw [Polygraphia.caesar_shift_char_eval_dec _ _ ha1, if_pos hu1, hlow1]
    apply Polygraphia.char_toNat_injective
    rw [Polygraphia.toNat_ofNat_small _ (by omega)]
    omega
  · have hlowN : (Polygraphia.toAsciiLowercase c).toNat = c.toNat := by
      rw [Polygraphia.toAsciiLowercase_toNat h, if_neg (by simp [hu])]
    rw [Polygraphia.caesar_shift_char_eval_enc s c h, if_neg (by simp [hu]), hlowN]
    set m : Nat :=
      ((((c.toNat - 97 : Nat) : Int) + (s.shift : Int)) % 26).toNat with hm
    have hmlt : m < 26 := by omega
    have ht1 : (Char.ofNat (97 + m)).toNat = 97 + m :=
      Polygraphia.toNat_ofNat_small _ (by omega)
    have ha1 : Polygraphia.isAsciiAlphabetic (Char.ofNat (97 + m)) = true := by
      unfold Polygraphia.isAsciiAlphabetic
      simp only [ht1, Bool.or_eq_true, Bool.and_eq_true, decide_eq_true_eq]
      omega
    have hu1 : Polygraphia.isAsciiUppercase (Char.ofNat (97 + m)) = false := by
      unfold Polygraphia.isAsciiUppercase
      simp only [ht1, Bool.and_eq_false_iff, decide_eq_false_iff_not]
      omega
    have hlow1 : (Polygraphia.toAsciiLowercase (Char.ofNat (97 + m))).toNat = 97 + m := by
      rw [Polygraphia.toAsciiLowercase_toNat ha1, if_neg (by simp [hu1]), ht1]
    rw [Polygraphia.caesar_shift_char_eval_dec _ _ ha1, if_neg (by simp [hu1]), hlow1]
    apply Polygraphia.char_toNat_injective
    rw [Polygraphia.toNat_ofNat_small _ (by omega)]
    omega

theorem Polygraphia.shift_char_preserves_alpha (s : Polygraphia.Caesar) (c : Char) (e : Bool)
    (h : Polygraphia.isAsciiAlphabetic c = true) :
    Polygraphia.isAsciiAlphabetic (s.shift_char c e) = true := by
  cases e
  all_goals
    first
    | rw [Polygraphia.caesar_shift_char_eval_dec s c h]
    | rw [Polygraphia.caesar_shift_char_eval_enc s c h]
  all_goals
    rcases Polygraphia.alpha_cases h with ⟨hu, h1, h2⟩ | ⟨hu, h1, h2⟩
  all_goals
    first
    | rw [if_pos hu]
    | rw [if_neg (by simp [hu])]
  all_goals
    unfold Polygraphia.isAsciiAlphabetic
  all_goals
    rw [Polygraphia.toNat_ofNat_small _ (by omega)]
  all_goals
    simp only [Bool.or_eq_true, Bool.and_eq_true, decide_eq_true_eq]
  all_goals omega

theorem Polygraphia.caesar_process_roundtrip_alpha (s : Polygraphia.Caesar) (l : List Char)
    (hall : ∀ c ∈ l, Polygraphia.isAsciiAlphabetic c = true) :
    (l.map (fun c => s.shift_char c true)).map (fun c => s.shift_char c false) = l := by
  rw [List.map_map]
  have : l.map ((fun c => s.shift_char c false) ∘ (fun c => s.shift_char c true)) =
      l.map id := by
    apply List.map_congr_left
    intro a ha
    exact Polygraphia.shift_char_roundtrip s a (hall a ha)
  rw [this, List.map_id]

/-- C4: for every Caesar shift and both text modes, on any text containing at
least one ASCII letter, `decrypt (encrypt t)` succeeds and returns `t`
filtered per the mode (unchanged in PreserveAll; restricted to its ASCII
letters in AlphaOnly), case included. -/
theorem caesar_roundtrip (shift : Nat) (mode : Polygraphia.TextMode) (t : List Char)
    (h : t.any (fun c => Polygraphia.isAsciiAlphabetic c) = true) :
    ∃ s, Polygraphia.Caesar.with_mode shift mode = .ok s ∧
      ∃ ct, s.encrypt t = .ok ct ∧
        s.decrypt ct = .ok (Polygraphia.filteredPerMode mode t) := by
  obtain ⟨c0, hc0mem, hc0'⟩ := List.any_eq_true.mp h
  have hc0 : Polygraphia.isAsciiAlphabetic c0 = true := by simpa using hc0'
  have htE : t.isEmpty = false := by
    cases t with
    | nil => simp at hc0mem
    | cons a l => rfl
  refine ⟨⟨shift % 26, mode⟩, rfl, ?_⟩
  cases mode with
  | AlphaOnly =>
    set s : Polygraphia.Caesar := ⟨shift % 26, Polygraphia.TextMode.AlphaOnly⟩ with hs
    set l := t.filter (fun c => Polygraphia.isAsciiAlphabetic c) with hl
    have hmem : c0 ∈ l := List.mem_filter.mpr ⟨hc0mem, hc0⟩
    obtain ⟨y, ys, hys⟩ := List.exists_cons_of_ne_nil (List.ne_nil_of_mem hmem)
    set ct := l.map (fun c => s.shift_char c true) with hct
    have hctE : ct.isEmpty = false := by rw [hct, hys]; rfl
    have hallct : ∀ c ∈ ct, Polygraphia.isAsciiAlphabetic c = true := by
      intro c hc
      rw [hct] at hc
      obtain ⟨a, ha, rfl⟩ := List.mem_map.mp hc
      exact Polygraphia.shift_char_preserves_alpha s a true
        (List.of_mem_filter ha)
    refine ⟨ct, ?_, ?_⟩
    · unfold Polygraphia.Caesar.encrypt
      rw [if_neg (by simp [htE])]
      dsimp only
      rw [if_neg (fun hconj => by
        have := hconj.2
        rw [show s.process_text t true = ct from rfl, hctE] at this
        exact Bool.false_ne_true this)]
      rfl
    · unfold Polygraphia.Caesar.decrypt
      rw [if_neg (by simp [hctE])]
      dsimp only
      have hproc : s.process_text ct false = l := by
        show (ct.filter (fun c => Polygraphia.isAsciiAlphabetic c)).map
          (fun c => s.shift_char c false) = l
        rw [List.filter_eq_self.mpr hallct, hct]
        exact Polygraphia.caesar_process_roundtrip_alpha s l
          (fun c hc => List.of_mem_filter (hl ▸ hc))
      rw [if_neg (fun hconj => by
        have := hconj.2
        rw [hproc] at this
        rw [hys] at this
        exact Bool.false_ne_true this)]
      rw [hproc]
      rfl
  | PreserveAll =>
    set s : Polygraphia.Caesar := ⟨shift % 26, Polygraphia.TextMode.PreserveAll⟩ with hs
    set f : Char → Char := fun c =>
      if Polygraphia.isAsciiAlphabetic c then s.shift_char c true else c with hf
    set g : Char → Char := fun c =>
      if Polygraphia.isAsciiAlphabetic c then s.shift_char c false else c with hg
    set ct := t.map f with hct
    have hctE : ct.isEmpty = false := by
      rw [hct]
      cases t with
      | nil => simp at hc0mem
      | cons a l => rfl
    have hroundtrip : ct.map g = t := by
      rw [hct, List.map_map]
      have : t.map (g ∘ f) = t.map id := by
        apply List.map_congr_left
        intro a _
        by_cases ha : Polygraphia.isAsciiAlphabetic a = true
        · show g (f a) = a
          rw [hf, hg]
          simp only [ha, if_true, if_pos]
          have halpha' := Polygraphia.shift_char_preserves_alpha s a true ha
          rw [if_pos halpha']
          exact Polygraphia.shift_char_roundtrip s a ha
        · show g (f a) = a
          rw [hf, hg]
          simp only [ha]
          rw [if_neg (by simp [ha]), if_neg (by simp [ha])]
      rw [this, List.map_id]
    refine ⟨ct, ?_, ?_⟩
    · unfold Polygraphia.Caesar.encrypt
      rw [if_neg (by simp [htE])]
      dsimp only
      rw [if_neg (fun hconj => by
        cases hconj.1)]
      rfl
    · unfold Polygraphia.Caesar.decrypt
      rw [if_neg (by simp [hctE])]
      dsimp only
      rw [if_neg (fun hconj => by cases hconj.1)]
      show Except.ok (ct.map g) = _
      rw [hroundtrip]
      rfl

/-- Witness for `caesar_roundtrip` at shift 3, AlphaOnly, t = "Ab1". -/
theorem caesar_roundtrip_witness :
    ("Ab1".toList.any (fun c => Polygraphia.isAsciiAlphabetic c) = true) ∧
    (∃ s, Polygraphia.Caesar.with_mode 3 Polygraphia.TextMode.AlphaOnly = .ok s ∧
      ∃ ct, s.encrypt "Ab1".toList = .ok ct ∧
        s.decrypt ct = .ok (Polygraphia.filteredPerMode Polygraphia.TextMode.AlphaOnly "Ab1".toList)) :=
  ⟨by decide, caesar_roundtrip 3 Polygraphia.TextMode.AlphaOnly "Ab1".toList (by decide)⟩

/-- C9: all four ciphers fail with `InvalidInput` on the empty string for
both encrypt and decrypt; on non-empty input with zero ASCII letters, Caesar
and Affine fail with `InvalidInput` in AlphaOnly mode, and Playfair and Hill
fail with `InvalidInput` in every mode. -/
theorem cipher_input_errors :
    (∀ s : Polygraphia.Caesar,
      Polygraphia.isInvalidInput (s.encrypt []) = true ∧
      Polygraphia.isInvalidInput (s.decrypt []) = true ∧
      (∀ t : List Char, t ≠ [] → (∀ c ∈ t, Polygraphia.isAsciiAlphabetic c = false) →
        s.mode = Polygraphia.TextMode.AlphaOnly →
        Polygraphia.isInvalidInput (s.encrypt t) = true ∧
        Polygraphia.isInvalidInput (s.decrypt t) = true)) ∧
    (∀ a : Polygraphia.Affine,
      Polygraphia.isInvalidInput (a.encrypt []) = true ∧
      Polygraphia.isInvalidInput (a.decrypt []) = true ∧
      (∀ t : List Char, t ≠ [] → (∀ c ∈ t, Polygraphia.isAsciiAlphabetic c = false) →
        a.mode = Polygraphia.TextMode.AlphaOnly →
        Polygraphia.isInvalidInput (a.encrypt t) = true ∧
        Polygraphia.isInvalidInput (a.decrypt t) = true)) ∧
    (∀ p : Polygraphia.Playfair,
      Polygraphia.isInvalidInput (p.encrypt []) = true ∧
      Polygraphia.isInvalidInput (p.decrypt []) = true ∧
      (∀ t : List Char, t ≠ [] → (∀ c ∈ t, Polygraphia.isAsciiAlphabetic c = false) →
        Polygraphia.isInvalidInput (p.encrypt t) = true ∧
        Polygraphia.isInvalidInput (p.decrypt t) = true)) ∧
    (∀ hc : Polygraphia.Hill,
      Polygraphia.isInvalidInput (hc.encrypt []) = true ∧
      Polygraphia.isInvalidInput (hc.decrypt []) = true ∧
      (∀ t : List Char, t ≠ [] → (∀ c ∈ t, Polygraphia.isAsciiAlphabetic c = false) →
        Polygraphia.isInvalidInput (hc.encrypt t) = true ∧
        Polygraphia.isInvalidInput (hc.decrypt t) = true)) := by
  have htEfalse : ∀ (t : List Char), t ≠ [] → t.isEmpty = false := by
    intro t ht
    cases t with
    | nil => exact absurd rfl ht
    | cons a l => rfl
  have hany : ∀ (t : List Char), (∀ c ∈ t, Polygraphia.isAsciiAlphabetic c = false) →
      t.any (fun c => Polygraphia.isAsciiAlphabetic c) = false := by
    intro t hno
    rw [List.any_eq_false]
    intro x hx
    simp [hno x hx]
  have hfilter : ∀ (t : List Char), (∀ c ∈ t, Polygraphia.isAsciiAlphabetic c = false) →
      t.filter (fun c => Polygraphia.isAsciiAlphabetic c) = [] := by
    intro t hno
    rw [List.filter_eq_nil_iff]
    intro x hx
    simp [hno x hx]
  refine ⟨?_, ?_, ?_, ?_⟩
  · intro s
    refine ⟨rfl, rfl, ?_⟩
    intro t htne hno hmode
    have hres : s.process_text t true = [] := by
      unfold Polygraphia.Caesar.process_text
      rw [hmode]
      dsimp only
      rw [hfilter t hno]
      rfl
    have hres' : s.process_text t false = [] := by
      unfold Polygraphia.Caesar.process_text
      rw [hmode]
      dsimp only
      rw [hfilter t hno]
      rfl
    constructor
    · unfold Polygraphia.Caesar.encrypt
      rw [if_neg (by simp [htEfalse t htne])]
      dsimp only
      rw [if_pos ⟨hmode, by rw [hres]; rfl⟩]
      rfl
    · unfold Polygraphia.Caesar.decrypt
      rw [if_neg (by simp [htEfalse t htne])]
      dsimp only
      rw [if_pos ⟨hmode, by rw [hres']; rfl⟩]
      rfl
  · intro a
    refine ⟨rfl, rfl, ?_⟩
    intro t htne hno hmode
    have hres : a.process_text t true = [] := by
      unfold Polygraphia.Affine.process_text
      rw [hmode]
      dsimp only
      rw [hfilter t hno]
      rfl
    have hres' : a.process_text t false = [] := by
      unfold Polygraphia.Affine.process_text
      rw [hmode]
      dsimp only
      rw [hfilter t hno]
      rfl
    constructor
    · unfold Polygraphia.Affine.encrypt
      rw [if_neg (by simp [htEfalse t htne])]
      dsimp only
      rw [if_pos ⟨hmode, by rw [hres]; rfl⟩]
      rfl
    · unfold Polygraphia.Affine.decrypt
      rw [if_neg (by simp [htEfalse t htne])]
      dsimp only
      rw [if_pos ⟨hmode, by rw [hres']; rfl⟩]
      rfl
  · intro p
    refine ⟨rfl, rfl, ?_⟩
    intro t htne hno
    constructor
    · unfold Polygraphia.Playfair.encrypt
      rw [if_neg (by simp [htEfalse t htne]), if_pos (by simp [hany t hno])]
      rfl
    · unfold Polygraphia.Playfair.decrypt
      rw [if_neg (by simp [htEfalse t htne]), if_pos (by simp [hany t hno])]
      rfl
  · intro hc
    refine ⟨rfl, rfl, ?_⟩
    intro t htne hno
    constructor
    · unfold Polygraphia.Hill.encrypt
      rw [if_neg (by simp [htEfalse t htne]), if_pos (by simp [hany t hno])]
      rfl
    · unfold Polygraphia.Hill.decrypt
      rw [if_neg (by simp [htEfalse t htne]), if_pos (by simp [hany t hno])]
      rfl

/-- Witness for `cipher_input_errors`: concrete instances of the four
ciphers on input "1!" (non-empty, no letters) and on the empty input. -/
theorem cipher_input_errors_witness :
    Polygraphia.isInvalidInput
      (Polygraphia.Caesar.encrypt ⟨3, Polygraphia.TextMode.AlphaOnly⟩ "1!".toList) = true ∧
    Polygraphia.isInvalidInput
      (Polygraphia.Affine.decrypt ⟨5, 3, 9, Polygraphia.TextMode.AlphaOnly⟩ []) = true ∧
    Polygraphia.isInvalidInput
      (Polygraphia.Playfair.encrypt
        ⟨[], fun _ _ => 0, Polygraphia.TextMode.PreserveAll⟩ "1!".toList) = true ∧
    Polygraphia.isInvalidInput
      (Polygraphia.Hill.encrypt
        ⟨⟨0, []⟩, ⟨0, []⟩, 0, Polygraphia.TextMode.PreserveAll⟩ "1!".toList) = true :=
  ⟨((cipher_input_errors.1 ⟨3, Polygraphia.TextMode.AlphaOnly⟩).2.2 "1!".toList
      (by decide) (by decide) rfl).1,
   (cipher_input_errors.2.1 ⟨5, 3, 9, Polygraphia.TextMode.AlphaOnly⟩).2.1,
   ((cipher_input_errors.2.2.1 ⟨[], fun _ _ => 0, Polygraphia.TextMode.PreserveAll⟩).2.2
      "1!".toList (by decide) (by decide)).1,
   ((cipher_input_errors.2.2.2 ⟨⟨0, []⟩, ⟨0, []⟩, 0, Polygraphia.TextMode.PreserveAll⟩).2.2
      "1!".toList (by decide) (by decide)).1⟩

theorem Polygraphia.mem_alphabet25_iff (c : Char) :
    c ∈ Polygraphia.alphabet25 ↔ (97 ≤ c.toNat ∧ c.toNat ≤ 122 ∧ c.toNat ≠ 106) := by
  constructor
  · intro h
    fin_cases h <;> decide
  · rintro ⟨h1, h2, h3⟩
    have hmap : Polygraphia.alphabet25.map Char.toNat =
        [97, 98, 99, 100, 101, 102, 103, 104, 105, 107, 108, 109, 110, 111, 112,
         113, 114, 115, 116, 117, 118, 119, 120, 121, 122] := by decide
    have hmem : c.toNat ∈ Polygraphia.alphabet25.map Char.toNat := by
      rw [hmap]
      simp only [List.mem_cons, List.not_mem_nil, or_false]
      omega
    obtain ⟨d, hd, hde⟩ := List.mem_map.mp hmem
    exact (Polygraphia.char_toNat_injective hde) ▸ hd

theorem Polygraphia.normalize_mem_alphabet25 {c : Char}
    (h : Polygraphia.isAsciiAlphabetic c = true) :
    Polygraphia.normalizeLetter c ∈ Polygraphia.alphabet25 := by
  unfold Polygraphia.normalizeLetter
  dsimp only
  by_cases hj : Polygraphia.toAsciiLowercase c = 'j'
  · rw [if_pos hj]
    decide
  · rw [if_neg hj]
    rw [Polygraphia.mem_alphabet25_iff]
    have hlow := Polygraphia.toAsciiLowercase_toNat h
    have hne : (Polygraphia.toAsciiLowercase c).toNat ≠ 106 := by
      intro he
      exact hj (Polygraphia.char_toNat_injective (by rw [he]; rfl))
    rcases Polygraphia.alpha_cases h with ⟨hu, h1, h2⟩ | ⟨hu, h1, h2⟩
    · rw [if_pos hu] at hlow
      omega
    · rw [if_neg (by simp [hu])] at hlow
      omega

theorem Polygraphia.foldl_addMissing_mem_preserved (l : List Char) :
    ∀ (acc : List Char) (x : Char), x ∈ acc →
      x ∈ l.foldl (fun acc c => if c ∈ acc then acc else acc ++ [c]) acc := by
  induction l with
  | nil => intro acc x hx; exact hx
  | cons c l ih =>
    intro acc x hx
    simp only [List.foldl_cons]
    apply ih
    by_cases hc : c ∈ acc
    · rw [if_pos hc]; exact hx
    · rw [if_neg hc]; exact List.mem_append_left _ hx

theorem Polygraphia.foldl_addMissing_mem_new (l : List Char) :
    ∀ (acc : List Char) (x : Char), x ∈ l →
      x ∈ l.foldl (fun acc c => if c ∈ acc then acc else acc ++ [c]) acc := by
  induction l with
  | nil => intro acc x hx; cases hx
  | cons c l ih =>
    intro acc x hx
    simp only [List.foldl_cons]
    rcases List.mem_cons.mp hx with rfl | hx'
    · apply Polygraphia.foldl_addMissing_mem_preserved
      by_cases hc : x ∈ acc
      · rw [if_pos hc]; exact hc
      · rw [if_neg hc]; exact List.mem_append_right _ (List.mem_singleton_self x)
    · exact ih _ x hx'

theorem Polygraphia.foldl_addMissing_subset (l : List Char) :
    ∀ (acc : List Char) (x : Char),
      x ∈ l.foldl (fun acc c => if c ∈ acc then acc else acc ++ [c]) acc →
      x ∈ acc ∨ x ∈ l := by
  induction l with
  | nil => intro acc x hx; exact Or.inl hx
  | cons c l ih =>
    intro acc x hx
    simp only [List.foldl_cons] at hx
    rcases ih _ x hx with hacc | hl
    · by_cases hc : c ∈ acc
      · rw [if_pos hc] at hacc; exact Or.inl hacc
      · rw [if_neg hc] at hacc
        rcases List.mem_append.mp hacc with h1 | h2
        · exact Or.inl h1
        · exact Or.inr (List.mem_cons.mpr (Or.inl (List.mem_singleton.mp h2)))
    · exact Or.inr (List.mem_cons.mpr (Or.inr hl))

theorem Polygraphia.foldl_addMissing_nodup (l : List Char) :
    ∀ (acc : List Char), acc.Nodup →
      (l.foldl (fun acc c => if c ∈ acc then acc else acc ++ [c]) acc).Nodup := by
  induction l with
  | nil => intro acc h; exact h
  | cons c l ih =>
    intro acc h
    simp only [List.foldl_cons]
    apply ih
    by_cases hc : c ∈ acc
    · rw [if_pos hc]; exact h
    · rw [if_neg hc]
      rw [List.nodup_append]
      exact ⟨h, List.nodup_singleton c, fun a ha hc' => by
        rw [List.mem_singleton] at hc'
        subst hc'
        exact hc ha⟩

theorem Polygraphia.phase1_mem_alphabet (key : List Char) :
    ∀ (acc : List Char), (∀ x ∈ acc, x ∈ Polygraphia.alphabet25) →
      ∀ x ∈ key.foldl (fun acc c =>
        if ¬ Polygraphia.isAsciiAlphabetic c then acc
        else
          let c_normalized := Polygraphia.normalizeLetter c
          if c_normalized ∈ acc then acc else acc ++ [c_normalized]) acc,
      x ∈ Polygraphia.alphabet25 := by
  induction key with
  | nil => intro acc hacc x hx; exact hacc x hx
  | cons c l ih =>
    intro acc hacc x hx
    simp only [List.foldl_cons] at hx
    refine ih _ ?_ x hx
    by_cases halpha : Polygraphia.isAsciiAlphabetic c = true
    · rw [if_neg (by simp [halpha])]
      by_cases hmem : Polygraphia.normalizeLetter c ∈ acc
      · rw [if_pos hmem]; exact hacc
      · rw [if_neg hmem]
        intro y hy
        rcases List.mem_append.mp hy with h1 | h2
        · exact hacc y h1
        · rw [List.mem_singleton] at h2
          subst h2
          exact Polygraphia.normalize_mem_alphabet25 halpha
    · rw [if_pos (by simp [halpha])]
      exact hacc

theorem Polygraphia.phase1_nodup (key : List Char) :
    ∀ (acc : List Char), acc.Nodup →
      (key.foldl (fun acc c =>
        if ¬ Polygraphia.isAsciiAlphabetic c then acc
        else
          let c_normalized := Polygraphia.normalizeLetter c
          if c_normalized ∈ acc then acc else acc ++ [c_normalized]) acc).Nodup := by
  induction key with
  | nil => intro acc h; exact h
  | cons c l ih =>
    intro acc h
    simp only [List.foldl_cons]
    refine ih _ ?_
    by_cases halpha : Polygraphia.isAsciiAlphabetic c = true
    · rw [if_neg (by simp [halpha])]
      by_cases hmem : Polygraphia.normalizeLetter c ∈ acc
      · rw [if_pos hmem]; exact h
      · rw [if_neg hmem]
        rw [List.nodup_append]
        exact ⟨h, List.nodup_singleton _, fun a ha hc' => by
          rw [List.mem_singleton] at hc'
          subst hc'
          exact hmem ha⟩
    · rw [if_pos (by simp [halpha])]
      exact h

theorem Polygraphia.prepare_key_mem_alphabet (key : List Char) :
    ∀ c ∈ Polygraphia.Playfair.prepare_key key, c ∈ Polygraphia.alphabet25 := by
  intro c hc
  unfold Polygraphia.Playfair.prepare_key at hc
  dsimp only at hc
  rcases Polygraphia.foldl_addMissing_subset _ _ _ hc with h1 | h2
  · exact Polygraphia.phase1_mem_alphabet key [] (by intro x hx; cases hx) c h1
  · exact h2

theorem Polygraphia.prepare_key_contains (key : List Char) :
    ∀ c ∈ Polygraphia.alphabet25, c ∈ Polygraphia.Playfair.prepare_key key := by
  intro c hc
  unfold Polygraphia.Playfair.prepare_key
  dsimp only
  exact Polygraphia.foldl_addMissing_mem_new _ _ c hc

theorem Polygraphia.prepare_key_nodup (key : List Char) :
    (Polygraphia.Playfair.prepare_key key).Nodup := by
  unfold Polygraphia.Playfair.prepare_key
  dsimp only
  exact Polygraphia.foldl_addMissing_nodup _ _ (Polygraphia.phase1_nodup key [] List.nodup_nil)

theorem Polygraphia.prepare_key_length (key : List Char) :
    (Polygraphia.Playfair.prepare_key key).length = 25 := by
  have h1 : (Polygraphia.Playfair.prepare_key key).length ≤ Polygraphia.alphabet25.length :=
    ((Polygraphia.prepare_key_nodup key).subperm
      (Polygraphia.prepare_key_mem_alphabet key)).length_le
  have h2 : Polygraphia.alphabet25.length ≤ (Polygraphia.Playfair.prepare_key key).length :=
    ((by decide : Polygraphia.alphabet25.Nodup).subperm
      (Polygraphia.prepare_key_contains key)).length_le
  have h3 : Polygraphia.alphabet25.length = 25 := by decide
  omega

theorem Polygraphia.generate_matrix_cells (key : List Char) (hlen : key.length = 25)
    (hmem : ∀ c ∈ key, c ∈ Polygraphia.alphabet25) :
    ∀ r c : Nat, r < 5 → c < 5 →
      ∃ d ∈ Polygraphia.alphabet25,
        Polygraphia.Playfair.generate_matrix key r c = d.toNat - 97 := by
  intro r c hr hc
  have hidx : 5 * r + c < key.length := by omega
  refine ⟨key[5 * r + c], hmem _ (List.getElem_mem hidx), ?_⟩
  unfold Polygraphia.Playfair.generate_matrix
  rw [List.getD_eq_getElem _ _ hidx]

theorem Polygraphia.generate_matrix_surj (key : List Char) (hlen : key.length = 25)
    (hcontains : ∀ c ∈ Polygraphia.alphabet25, c ∈ key) :
    ∀ d ∈ Polygraphia.alphabet25, ∃ r c : Nat, r < 5 ∧ c < 5 ∧
      Polygraphia.Playfair.generate_matrix key r c = d.toNat - 97 := by
  intro d hd
  obtain ⟨i, hi, hie⟩ := List.getElem_of_mem (hcontains d hd)
  refine ⟨i / 5, i % 5, by omega, by omega, ?_⟩
  unfold Polygraphia.Playfair.generate_matrix
  have hix : 5 * (i / 5) + i % 5 = i := Nat.div_add_mod i 5
  rw [hix, List.getD_eq_getElem _ _ (by omega), hie]

theorem Polygraphia.get_coordinates_some (p : Polygraphia.Playfair) (v : Nat)
    (hex : ∃ r c : Nat, r < 5 ∧ c < 5 ∧ p.matrix r c = v) :
    ∃ rc : Nat × Nat, p.get_coordinates v = .ok rc ∧ rc.1 < 5 ∧ rc.2 < 5 := by
  obtain ⟨r, c, hr, hc, hval⟩ := hex
  have hmemL : (r, c) ∈ (List.range 5).flatMap (fun row =>
      (List.range 5).map (fun col => (row, col))) := by
    rw [List.mem_flatMap]
    exact ⟨r, List.mem_range.mpr hr, List.mem_map.mpr ⟨c, List.mem_range.mpr hc, rfl⟩⟩
  have hpred : (fun rc : Nat × Nat => p.matrix rc.1 rc.2 == v) (r, c) = true := by
    simp [hval]
  rcases hfind : ((List.range 5).flatMap (fun row =>
      (List.range 5).map (fun col => (row, col)))).find?
      (fun rc : Nat × Nat => p.matrix rc.1 rc.2 == v) with _ | rc
  · exact absurd hpred (by simpa using List.find?_eq_none.mp hfind (r, c) hmemL)
  · have hmem : rc ∈ (List.range 5).flatMap (fun row =>
        (List.range 5).map (fun col => (row, col))) := List.mem_of_find?_eq_some hfind
    rw [List.mem_flatMap] at hmem
    obtain ⟨row, hrow, hin⟩ := hmem
    obtain ⟨col, hcol, rfl⟩ := List.mem_map.mp hin
    refine ⟨(row, col), ?_, by simpa using hrow, by simpa using hcol⟩
    unfold Polygraphia.Playfair.get_coordinates
    rw [hfind]

theorem Polygraphia.ofNat_matrix_mem (p : Polygraphia.Playfair)
    (hcells : ∀ r c : Nat, r < 5 → c < 5 →
      ∃ d ∈ Polygraphia.alphabet25, p.matrix r c = d.toNat - 97)
    (r c : Nat) (hr : r < 5) (hc : c < 5) :
    Char.ofNat (p.matrix r c + 97) ∈ Polygraphia.alphabet25 := by
  obtain ⟨d, hd, hv⟩ := hcells r c hr hc
  have hdbounds := (Polygraphia.mem_alphabet25_iff d).mp hd
  have hveq : p.matrix r c + 97 = d.toNat := by omega
  rw [hveq]
  have ht : (Char.ofNat d.toNat).toNat = d.toNat :=
    Polygraphia.toNat_ofNat_small _ (by omega)
  rw [Polygraphia.char_toNat_injective ht]
  exact hd

theorem Polygraphia.process_pair_ok (p : Polygraphia.Playfair)
    (hcells : ∀ r c : Nat, r < 5 → c < 5 →
      ∃ d ∈ Polygraphia.alphabet25, p.matrix r c = d.toNat - 97)
    (hsurj : ∀ d ∈ Polygraphia.alphabet25, ∃ r c : Nat, r < 5 ∧ c < 5 ∧
      p.matrix r c = d.toNat - 97)
    (c1 c2 : Char) (h1 : c1 ∈ Polygraphia.alphabet25) (h2 : c2 ∈ Polygraphia.alphabet25)
    (e : Bool) :
    ∃ o1 o2, p.process_pair [c1, c2] e = .ok [o1, o2] ∧
      o1 ∈ Polygraphia.alphabet25 ∧ o2 ∈ Polygraphia.alphabet25 := by
  obtain ⟨rc1, hrc1, hr1, hk1⟩ := Polygraphia.get_coordinates_some p _ (hsurj c1 h1)
  obtain ⟨rc2, hrc2, hr2, hk2⟩ := Polygraphia.get_coordinates_some p _ (hsurj c2 h2)
  obtain ⟨r1, k1⟩ := rc1
  obtain ⟨r2, k2⟩ := rc2
  simp only at hr1 hk1 hr2 hk2
  unfold Polygraphia.Playfair.process_pair
  rw [if_neg (by simp)]
  simp only [List.getD_cons_zero, List.getD_cons_succ]
  rw [hrc1, hrc2]
  dsimp only
  by_cases hrow : r1 = r2
  · rw [if_pos hrow]
    exact ⟨_, _, rfl,
      Polygraphia.ofNat_matrix_mem p hcells _ _ hr1 (Nat.mod_lt _ (by norm_num)),
      Polygraphia.ofNat_matrix_mem p hcells _ _ hr2 (Nat.mod_lt _ (by norm_num))⟩
  · rw [if_neg hrow]
    by_cases hcol : k1 = k2
    · rw [if_pos hcol]
      exact ⟨_, _, rfl,
        Polygraphia.ofNat_matrix_mem p hcells _ _ (Nat.mod_lt _ (by norm_num)) hk1,
        Polygraphia.ofNat_matrix_mem p hcells _ _ (Nat.mod_lt _ (by norm_num)) hk2⟩
    · rw [if_neg hcol]
      exact ⟨_, _, rfl,
        Polygraphia.ofNat_matrix_mem p hcells _ _ hr1 hk2,
        Polygraphia.ofNat_matrix_mem p hcells _ _ hr2 hk1⟩

theorem Polygraphia.process_chunks_ok (p : Polygraphia.Playfair)
    (hcells : ∀ r c : Nat, r < 5 → c < 5 →
      ∃ d ∈ Polygraphia.alphabet25, p.matrix r c = d.toNat - 97)
    (hsurj : ∀ d ∈ Polygraphia.alphabet25, ∃ r c : Nat, r < 5 ∧ c < 5 ∧
      p.matrix r c = d.toNat - 97)
    (e : Bool) :
    ∀ (n : Nat) (l : List Char), l.length ≤ n → (∀ c ∈ l, c ∈ Polygraphia.alphabet25) →
      l.length % 2 = 0 →
      ∃ out, p.process_chunks l e = .ok out ∧ out.length % 2 = 0 ∧
        ∀ c ∈ out, c ∈ Polygraphia.alphabet25 := by
  intro n
  induction n with
  | zero =>
    intro l hlen hmem heven
    have hnil : l = [] := List.eq_nil_of_length_eq_zero (by omega)
    subst hnil
    exact ⟨[], rfl, by simp, by simp⟩
  | succ n ih =>
    intro l hlen hmem heven
    match l with
    | [] => exact ⟨[], rfl, by simp, by simp⟩
    | [c] => simp at heven
    | c1 :: c2 :: rest =>
      obtain ⟨o1, o2, hpair, ho1, ho2⟩ := Polygraphia.process_pair_ok p hcells hsurj c1 c2
        (hmem c1 (by simp)) (hmem c2 (by simp)) e
      obtain ⟨out', hrest, heven', hmem'⟩ := ih rest
        (by simp only [List.length_cons] at hlen; omega)
        (fun c hc => hmem c (by simp [hc]))
        (by simp only [List.length_cons] at heven ⊢; omega)
      refine ⟨[o1, o2] ++ out', ?_, ?_, ?_⟩
      · unfold Polygraphia.Playfair.process_chunks
        rw [hpair, hrest]
      · simp only [List.length_append, List.length_cons, List.length_nil]
        omega
      · intro c hc
        rcases List.mem_append.mp hc with hc1 | hc2
        · rcases List.mem_cons.mp hc1 with rfl | hc1'
          · exact ho1
          · rcases List.mem_cons.mp hc1' with rfl | hc1''
            · exact ho2
            · cases hc1''
        · exact hmem' c hc2

theorem Polygraphia.prepPairs_subset (l : List Char) :
    ∀ c ∈ Polygraphia.Playfair.prepPairs l, c ∈ l ∨ c = 'x' := by
  induction l using Polygraphia.Playfair.prepPairs.induct with
  | case1 => intro c hc; cases hc
  | case2 c0 =>
    intro c hc
    rw [Polygraphia.Playfair.prepPairs] at hc
    exact Or.inl hc
  | case3 c2 rest ih =>
    intro c hc
    rw [Polygraphia.Playfair.prepPairs, if_pos rfl] at hc
    rcases List.mem_cons.mp hc with rfl | hc'
    · exact Or.inl (by simp)
    · rcases List.mem_cons.mp hc' with rfl | hc''
      · exact Or.inr rfl
      · rcases ih c hc'' with h1 | h2
        · exact Or.inl (List.mem_cons.mpr (Or.inr h1))
        · exact Or.inr h2
  | case4 c1 c2 rest hne ih =>
    intro c hc
    rw [Polygraphia.Playfair.prepPairs, if_neg hne] at hc
    rcases List.mem_cons.mp hc with rfl | hc'
    · exact Or.inl (by simp)
    · rcases ih c hc' with h1 | h2
      · exact Or.inl (List.mem_cons.mpr (Or.inr h1))
      · exact Or.inr h2

theorem Polygraphia.prepare_text_mem_alphabet (t : List Char) :
    ∀ c ∈ Polygraphia.Playfair.prepare_text t, c ∈ Polygraphia.alphabet25 := by
  intro c hc
  unfold Polygraphia.Playfair.prepare_text at hc
  dsimp only at hc
  have hfiltered : ∀ c ∈ (t.filter (fun c => Polygraphia.isAsciiAlphabetic c)).map
      Polygraphia.normalizeLetter, c ∈ Polygraphia.alphabet25 := by
    intro d hd
    obtain ⟨a, ha, rfl⟩ := List.mem_map.mp hd
    exact Polygraphia.normalize_mem_alphabet25 (List.of_mem_filter ha)
  have hx : ('x' : Char) ∈ Polygraphia.alphabet25 := by decide
  have hofPairs : ∀ d ∈ Polygraphia.Playfair.prepPairs
      ((t.filter (fun c => Polygraphia.isAsciiAlphabetic c)).map Polygraphia.normalizeLetter),
      d ∈ Polygraphia.alphabet25 := by
    intro d hd
    rcases Polygraphia.prepPairs_subset _ d hd with h1 | rfl
    · exact hfiltered d h1
    · exact hx
  split at hc
  · rcases List.mem_append.mp hc with h1 | h2
    · exact hofPairs c h1
    · rw [List.mem_singleton] at h2
      subst h2
      exact hx
  · exact hofPairs c hc

theorem Polygraphia.playfair_matrix_cells_of_key (pf : Polygraphia.Playfair) (k : List Char)
    (hmat : pf.matrix =
      Polygraphia.Playfair.generate_matrix (Polygraphia.Playfair.prepare_key k)) :
    (∀ r c : Nat, r < 5 → c < 5 →
      ∃ d ∈ Polygraphia.alphabet25, pf.matrix r c = d.toNat - 97) ∧
    (∀ d ∈ Polygraphia.alphabet25, ∃ r c : Nat, r < 5 ∧ c < 5 ∧
      pf.matrix r c = d.toNat - 97) := by
  constructor
  · rw [hmat]
    exact Polygraphia.generate_matrix_cells _ (Polygraphia.prepare_key_length k)
      (Polygraphia.prepare_key_mem_alphabet k)
  · rw [hmat]
    exact Polygraphia.generate_matrix_surj _ (Polygraphia.prepare_key_length k)
      (Polygraphia.prepare_key_contains k)

theorem Polygraphia.playfair_process_text_ok (pf : Polygraphia.Playfair) (k : List Char)
    (hmat : pf.matrix =
      Polygraphia.Playfair.generate_matrix (Polygraphia.Playfair.prepare_key k))
    (t : List Char) (e : Bool) :
    ∃ out, pf.process_text t e = .ok out ∧ out.length % 2 = 0 ∧
      ∀ c ∈ out, c ∈ Polygraphia.alphabet25 := by
  obtain ⟨hcells, hsurj⟩ := Polygraphia.playfair_matrix_cells_of_key pf k hmat
  obtain ⟨out, hout, heven, hmem⟩ := Polygraphia.process_chunks_ok pf hcells hsurj e
    (Polygraphia.Playfair.prepare_text t).length (Polygraphia.Playfair.prepare_text t)
    (Nat.le_refl _) (Polygraphia.prepare_text_mem_alphabet t)
    (Polygraphia.prepare_text_even t)
  exact ⟨out, hout, heven, hmem⟩

/-- C8: for every Playfair instance obtained from successful construction or
`set_key`, and every input with at least one ASCII letter, the internal
`InvalidInput` branches of `get_coordinates` and `process_pair` are
unreachable: encrypt and decrypt always succeed. -/
theorem playfair_no_internal_errors (p0 : Polygraphia.Playfair) (k : List Char)
    (mode : Polygraphia.TextMode) (t : List Char) (hk : k ≠ [])
    (ht : t.any (fun c => Polygraphia.isAsciiAlphabetic c) = true) :
    ∀ pf, (Polygraphia.Playfair.with_mode k mode = .ok pf ∨
        Polygraphia.Playfair.set_key p0 k = .ok pf) →
      (∃ o, pf.encrypt t = .ok o) ∧ (∃ o, pf.decrypt t = .ok o) := by
  intro pf hpf
  have hkE : k.isEmpty = false := by
    cases k with
    | nil => exact absurd rfl hk
    | cons a l => rfl
  have htE : t.isEmpty = false := by
    obtain ⟨c0, hc0, _⟩ := List.any_eq_true.mp ht
    cases t with
    | nil => cases hc0
    | cons a l => rfl
  have hmat : pf.matrix =
      Polygraphia.Playfair.generate_matrix (Polygraphia.Playfair.prepare_key k) := by
    rcases hpf with h | h
    · unfold Polygraphia.Playfair.with_mode at h
      rw [if_neg (by simp [hkE])] at h
      have := Except.ok.inj h
      rw [← this]
    · unfold Polygraphia.Playfair.set_key at h
      rw [if_neg (by simp [hkE])] at h
      have := Except.ok.inj h
      rw [← this]
  constructor
  · obtain ⟨out, hout, _, _⟩ := Polygraphia.playfair_process_text_ok pf k hmat t true
    refine ⟨out, ?_⟩
    unfold Polygraphia.Playfair.encrypt
    rw [if_neg (by simp [htE]), if_neg (by simp [ht])]
    exact hout
  · obtain ⟨out, hout, _, _⟩ := Polygraphia.playfair_process_text_ok pf k hmat t false
    refine ⟨out, ?_⟩
    unfold Polygraphia.Playfair.decrypt
    rw [if_neg (by simp [htE]), if_neg (by simp [ht])]
    exact hout

/-- C10: whenever Playfair encrypt or decrypt succeeds (on an instance whose
square comes from a prepared key), the output has even length and every
output character is a lowercase ASCII letter other than 'j'. -/
theorem playfair_output_form (pf : Polygraphia.Playfair) (k t out : List Char)
    (hmat : pf.matrix =
      Polygraphia.Playfair.generate_matrix (Polygraphia.Playfair.prepare_key k))
    (hok : pf.encrypt t = .ok out ∨ pf.decrypt t = .ok out) :
    out.length % 2 = 0 ∧ ∀ c ∈ out, 97 ≤ c.toNat ∧ c.toNat ≤ 122 ∧ c.toNat ≠ 106 := by
  have hproc : ∃ e, pf.process_text t e = .ok out := by
    rcases hok with h | h
    · unfold Polygraphia.Playfair.encrypt at h
      split at h
      · cases h
      · split at h
        · cases h
        · exact ⟨true, h⟩
    · unfold Polygraphia.Playfair.decrypt at h
      split at h
      · cases h
      · split at h
        · cases h
        · exact ⟨false, h⟩
  obtain ⟨e, hproc⟩ := hproc
  obtain ⟨out', hout', heven, hmem⟩ := Polygraphia.playfair_process_text_ok pf k hmat t e
  rw [hout'] at hproc
  have := Except.ok.inj hproc
  subst this
  exact ⟨heven, fun c hc => (Polygraphia.mem_alphabet25_iff c).mp (hmem c hc)⟩

/-- Witness for `playfair_no_internal_errors`: key "secret", text "hi". -/
theorem playfair_no_internal_errors_witness :
    ("secret".toList ≠ []) ∧
    ("hi".toList.any (fun c => Polygraphia.isAsciiAlphabetic c) = true) ∧
    ((∃ o, Polygraphia.Playfair.encrypt
        ⟨Polygraphia.Playfair.prepare_key "secret".toList,
         Polygraphia.Playfair.generate_matrix (Polygraphia.Playfair.prepare_key "secret".toList),
         Polygraphia.TextMode.PreserveAll⟩ "hi".toList = .ok o) ∧
     (∃ o, Polygraphia.Playfair.decrypt
        ⟨Polygraphia.Playfair.prepare_key "secret".toList,
         Polygraphia.Playfair.generate_matrix (Polygraphia.Playfair.prepare_key "secret".toList),
         Polygraphia.TextMode.PreserveAll⟩ "hi".toList = .ok o)) :=
  ⟨by decide, by decide,
    playfair_no_internal_errors
      ⟨Polygraphia.Playfair.prepare_key "secret".toList,
       Polygraphia.Playfair.generate_matrix (Polygraphia.Playfair.prepare_key "secret".toList),
       Polygraphia.TextMode.PreserveAll⟩
      "secret".toList Polygraphia.TextMode.PreserveAll "hi".toList
      (by decide) (by decide) _ (Or.inl rfl)⟩

/-- Witness for `playfair_output_form`: key "secret", text "hi",
ciphertext "ik". -/
theorem playfair_output_form_witness :
    ((Polygraphia.Playfair.encrypt
        ⟨Polygraphia.Playfair.prepare_key "secret".toList,
         Polygraphia.Playfair.generate_matrix (Polygraphia.Playfair.prepare_key "secret".toList),
         Polygraphia.TextMode.PreserveAll⟩ "hi".toList = .ok "ik".toList) ∧
     "ik".toList.length % 2 = 0 ∧
     ∀ c ∈ "ik".toList, 97 ≤ c.toNat ∧ c.toNat ≤ 122 ∧ c.toNat ≠ 106) :=
  ⟨by decide,
    playfair_output_form
      ⟨Polygraphia.Playfair.prepare_key "secret".toList,
       Polygraphia.Playfair.generate_matrix (Polygraphia.Playfair.prepare_key "secret".toList),
       Polygraphia.TextMode.PreserveAll⟩
      "secret".toList "hi".toList "ik".toList rfl (Or.inl (by decide))⟩

theorem Polygraphia.flatMap_map_getD (cs : List Nat) (f : Nat → Nat → Int) :
    ∀ (rs : List Nat) (i j : Nat), i < rs.length → j < cs.length →
      (rs.flatMap (fun r => cs.map (f r))).getD (i * cs.length + j) 0 =
        f (rs.getD i 0) (cs.getD j 0) := by
  intro rs
  induction rs with
  | nil => intro i j hi _; simp at hi
  | cons r rs ih =>
    intro i j hi hj
    simp only [List.flatMap_cons]
    cases i with
    | zero =>
      rw [Nat.zero_mul, Nat.zero_add]
      rw [List.getD_append _ _ _ _ (by simpa using hj)]
      rw [List.getD_eq_getElem _ _ (by simpa using hj), List.getElem_map,
        List.getD_cons_zero, List.getD_eq_getElem _ _ hj]
    | succ i =>
      have hlen : (List.map (f r) cs).length = cs.length := List.length_map _ _
      rw [List.getD_append_right _ _ _ _ (by rw [hlen]; nlinarith [Nat.le_add_right (i * cs.length + j) 0])]
      rw [hlen]
      have hidx : (i + 1) * cs.length + j - cs.length = i * cs.length + j := by
        have : (i + 1) * cs.length = i * cs.length + cs.length := by ring
        omega
      rw [hidx, List.getD_cons_succ]
      exact ih i j (by simpa using hi) hj

theorem Polygraphia.filter_range_ne (s n : Nat) (hs : s < n) :
    (List.range n).filter (fun x => x ≠ s) =
      List.range s ++ List.range' (s + 1) (n - s - 1) := by
  induction n with
  | zero => omega
  | succ n ih =>
    rw [List.range_succ, List.filter_append]
    by_cases hsn : s = n
    · subst hsn
      have h1 : (List.range s).filter (fun x => x ≠ s) = List.range s :=
        List.filter_eq_self.mpr (fun a ha => by
          have := List.mem_range.mp ha
          simp only [ne_eq, decide_eq_true_eq]
          omega)
      have h2 : [s].filter (fun x => x ≠ s) = [] := by simp
      rw [h1, h2]
      simp
    · have hs' : s < n := by omega
      have h2 : [n].filter (fun x => x ≠ s) = [n] := by
        simp only [List.filter_cons, List.filter_nil]
        rw [if_pos (by simp; omega)]
      rw [ih hs', h2, List.append_assoc]
      congr 1
      have he : n + 1 - s - 1 = (n - s - 1) + 1 := by omega
      rw [he, List.range'_concat]
      congr 2
      omega

theorem Polygraphia.minor_get (M : Polygraphia.Matrix) (n : Nat) (h : M.size = n + 1)
    (sr sc i j : Nat) (hsr : sr < n + 1) (hsc : sc < n + 1) (hi : i < n) (hj : j < n) :
    (M.minor sr sc).get i j =
      M.get (if i < sr then i else i + 1) (if j < sc then j else j + 1) := by
  have hget : (M.minor sr sc).get i j =
      (((List.range M.size).filter (fun row => row ≠ sr)).flatMap
        (fun row => ((List.range M.size).filter (fun col => col ≠ sc)).map
          (fun col => M.get row col))).getD (i * (M.size - 1) + j) 0 := rfl
  rw [hget, h]
  simp only [Nat.add_sub_cancel]
  rw [Polygraphia.filter_range_ne sr (n + 1) hsr, Polygraphia.filter_range_ne sc (n + 1) hsc]
  have hcs : (List.range sc ++ List.range' (sc + 1) (n + 1 - sc - 1)).length = n := by
    simp only [List.length_append, List.length_range, List.length_range']
    omega
  have hrs : (List.range sr ++ List.range' (sr + 1) (n + 1 - sr - 1)).length = n := by
    simp only [List.length_append, List.length_range, List.length_range']
    omega
  have hidx : i * n + j =
      i * (List.range sc ++ List.range' (sc + 1) (n + 1 - sc - 1)).length + j := by
    rw [hcs]
  rw [hidx, Polygraphia.flatMap_map_getD
    (List.range sc ++ List.range' (sc + 1) (n + 1 - sc - 1))
    (fun row col => M.get row col)
    (List.range sr ++ List.range' (sr + 1) (n + 1 - sr - 1))
    i j (by rw [hrs]; exact hi) (by rw [hcs]; exact hj)]
  have hgetrs : (List.range sr ++ List.range' (sr + 1) (n + 1 - sr - 1)).getD i 0 =
      if i < sr then i else i + 1 := by
    by_cases hc : i < sr
    · rw [if_pos hc, List.getD_append _ _ _ _ (by simpa using hc)]
      rw [List.getD_eq_getElem _ _ (by simpa using hc), List.getElem_range]
    · rw [if_neg hc,
        List.getD_append_right _ _ _ _ (by simpa using Nat.le_of_not_lt hc)]
      rw [List.length_range]
      rw [List.getD_eq_getElem _ _ (by simp only [List.length_range']; omega),
        List.getElem_range']
      omega
  have hgetcs : (List.range sc ++ List.range' (sc + 1) (n + 1 - sc - 1)).getD j 0 =
      if j < sc then j else j + 1 := by
    by_cases hc : j < sc
    · rw [if_pos hc, List.getD_append _ _ _ _ (by simpa using hc)]
      rw [List.getD_eq_getElem _ _ (by simpa using hc), List.getElem_range]
    · rw [if_neg hc,
        List.getD_append_right _ _ _ _ (by simpa using Nat.le_of_not_lt hc)]
      rw [List.length_range]
      rw [List.getD_eq_getElem _ _ (by simp only [List.length_range']; omega),
        List.getElem_range']
      omega
  rw [hgetrs, hgetcs]

theorem Polygraphia.minor_size (M : Polygraphia.Matrix) (sr sc : Nat) :
    (M.minor sr sc).size = M.size - 1 := rfl

theorem Polygraphia.minor_toMat (M : Polygraphia.Matrix) (n : Nat) (h : M.size = n + 1)
    (sr sc : Fin (n + 1)) :
    toMatN (M.minor sr sc) n =
      (toMatN M (n + 1)).submatrix sr.succAbove sc.succAbove := by
  ext i j
  show (M.minor sr sc).get i j = M.get (sr.succAbove i) (sc.succAbove j)
  rw [Polygraphia.minor_get M n h sr sc i j sr.isLt sc.isLt i.isLt j.isLt]
  have h1 : (if (i : Nat) < (sr : Nat) then (i : Nat) else (i : Nat) + 1) =
      ((sr.succAbove i : Fin (n + 1)) : Nat) := by
    by_cases hc : (i : Nat) < (sr : Nat)
    · rw [if_pos hc, Fin.succAbove_of_castSucc_lt sr i (by rw [Fin.lt_def]; simpa using hc)]
      simp
    · rw [if_neg hc, Fin.succAbove_of_le_castSucc sr i (by rw [Fin.le_def]; simp; omega)]
      simp
  have h2 : (if (j : Nat) < (sc : Nat) then (j : Nat) else (j : Nat) + 1) =
      ((sc.succAbove j : Fin (n + 1)) : Nat) := by
    by_cases hc : (j : Nat) < (sc : Nat)
    · rw [if_pos hc, Fin.succAbove_of_castSucc_lt sc j (by rw [Fin.lt_def]; simpa using hc)]
      simp
    · rw [if_neg hc, Fin.succAbove_of_le_castSucc sc j (by rw [Fin.le_def]; simp; omega)]
      simp
  rw [h1, h2]

theorem Polygraphia.sign_eq_neg_one_pow (k : Nat) :
    (if k % 2 = 0 then (1 : Int) else -1) = (-1) ^ k := by
  rcases Nat.even_or_odd k with he | ho
  · rw [if_pos (Nat.even_iff.mp he), Even.neg_one_pow he]
  · rw [if_neg (by rw [Nat.odd_iff] at ho; omega), Odd.neg_one_pow ho]

theorem Polygraphia.list_sum_range (f : Nat → Int) (n : Nat) :
    ((List.range n).map f).sum = ∑ i ∈ Finset.range n, f i := by
  induction n with
  | zero => simp
  | succ n ih =>
    rw [List.range_succ, List.map_append, List.sum_append, Finset.sum_range_succ, ih]
    simp

theorem Polygraphia.detFuel_eq (fuel : Nat) :
    ∀ (n : Nat) (M : Polygraphia.Matrix), M.size = n → 1 ≤ n → n ≤ fuel →
      Polygraphia.Matrix.detFuel fuel M = (toMatN M n).det := by
  induction fuel with
  | zero => intro n M _ h1 hle; omega
  | succ f ih =>
    intro n M hsize h1 hle
    rw [Polygraphia.Matrix.detFuel]
    match n, h1 with
    | 1, _ =>
      rw [if_pos hsize]
      rw [Matrix.det_fin_one]
      show M.data.getD 0 0 = M.get ((0 : Fin 1) : Nat) ((0 : Fin 1) : Nat)
      unfold Polygraphia.Matrix.get
      norm_num
    | 2, _ =>
      rw [if_neg (by omega), if_pos hsize]
      rw [Matrix.det_fin_two]
      show _ = M.get ((0 : Fin 2) : Nat) ((0 : Fin 2) : Nat) *
          M.get ((1 : Fin 2) : Nat) ((1 : Fin 2) : Nat) -
        M.get ((0 : Fin 2) : Nat) ((1 : Fin 2) : Nat) *
          M.get ((1 : Fin 2) : Nat) ((0 : Fin 2) : Nat)
      norm_num
    | 3, _ =>
      rw [if_neg (by omega), if_neg (by omega), if_pos hsize]
      rw [Matrix.det_fin_three]
      simp only [toMatN, Fin.val_zero, Fin.val_one, Fin.val_two]
      ring
    | (m + 4), _ =>
      rw [if_neg (by omega), if_neg (by omega), if_neg (by omega)]
      rw [hsize]
      rw [Polygraphia.list_sum_range
        (fun col => (if col % 2 = 0 then 1 else -1) * M.get 0 col *
          Polygraphia.Matrix.detFuel f (M.minor 0 col)) (m + 4)]
      rw [← Fin.sum_univ_eq_sum_range
        (fun col => (if col % 2 = 0 then 1 else -1) * M.get 0 col *
          Polygraphia.Matrix.detFuel f (M.minor 0 col)) (m + 4)]
      have hdet : (toMatN M (m + 4)).det =
          ∑ j : Fin (m + 4), (-1) ^ (j : Nat) * (toMatN M (m + 4)) 0 j *
            ((toMatN M (m + 4)).submatrix Fin.succ j.succAbove).det :=
        Matrix.det_succ_row_zero (toMatN M (m + 4))
      rw [hdet]
      apply Finset.sum_congr rfl
      intro j _
      have hminor : Polygraphia.Matrix.detFuel f (M.minor 0 (j : Nat)) =
          ((toMatN M (m + 4)).submatrix Fin.succ j.succAbove).det := by
        have hmsize : (M.minor 0 (j : Nat)).size = m + 3 := by
          rw [Polygraphia.minor_size, hsize]
          omega
        rw [ih (m + 3) (M.minor 0 (j : Nat)) hmsize (by omega) (by omega)]
        have := Polygraphia.minor_toMat M (m + 3) hsize (0 : Fin (m + 4)) j
        rw [Fin.succAbove_zero] at this
        have hzero : ((0 : Fin (m + 4)) : Nat) = 0 := rfl
        rw [hzero] at this
        rw [this]
      rw [hminor, Polygraphia.sign_eq_neg_one_pow]
      rfl

theorem Polygraphia.determinant_eq (M : Polygraphia.Matrix) (n : Nat)
    (hsize : M.size = n) (h1 : 1 ≤ n) : M.determinant = (toMatN M n).det := by
  have := Polygraphia.detFuel_eq M.size n M hsize h1 (by omega)
  exact this

/-- C5: the recursive `Matrix::determinant` (closed forms for sizes 1-3,
Laplace expansion along row 0 for larger sizes) equals the mathematical
determinant of the matrix, for every size N ≥ 1. -/
theorem determinant_refines_det (M : Polygraphia.Matrix) (h : 1 ≤ M.size) :
    M.determinant = (toMatN M M.size).det :=
  Polygraphia.determinant_eq M M.size rfl h

/-- Witness for `determinant_refines_det` on the 2×2 matrix [[7,8],[11,11]]. -/
theorem determinant_refines_det_witness :
    1 ≤ (Polygraphia.Matrix.mk 2 [7, 8, 11, 11]).size ∧
    (Polygraphia.Matrix.mk 2 [7, 8, 11, 11]).determinant =
      (toMatN (Polygraphia.Matrix.mk 2 [7, 8, 11, 11])
        (Polygraphia.Matrix.mk 2 [7, 8, 11, 11]).size).det :=
  ⟨by decide, determinant_refines_det (Polygraphia.Matrix.mk 2 [7, 8, 11, 11]) (by decide)⟩

theorem Polygraphia.adjugate_get (M : Polygraphia.Matrix) (n : Nat) (h : M.size = n + 1)
    (i j : Nat) (hi : i < n + 1) (hj : j < n + 1) :
    M.adjugate.get i j =
      (if (j + i) % 2 = 0 then (1 : Int) else -1) * (M.minor j i).determinant := by
  have hget : M.adjugate.get i j =
      ((List.range M.size).flatMap (fun col =>
        (List.range M.size).map (fun row =>
          (if (row + col) % 2 = 0 then (1 : Int) else -1) *
            (M.minor row col).determinant))).getD (i * M.size + j) 0 := rfl
  rw [hget, h]
  have hlen : (List.range (n + 1)).length = n + 1 := List.length_range _
  have hidx : i * (n + 1) + j = i * (List.range (n + 1)).length + j := by rw [hlen]
  rw [hidx, Polygraphia.flatMap_map_getD (List.range (n + 1))
    (fun col row => (if (row + col) % 2 = 0 then (1 : Int) else -1) *
      (M.minor row col).determinant)
    (List.range (n + 1)) i j (by rw [hlen]; exact hi) (by rw [hlen]; exact hj)]
  rw [List.getD_eq_getElem _ _ (by rw [hlen]; exact hj),
    List.getD_eq_getElem _ _ (by rw [hlen]; exact hi),
    List.getElem_range, List.getElem_range]

theorem Polygraphia.adjugate_toMat (M : Polygraphia.Matrix) (n : Nat) (h : M.size = n + 2) :
    toMatN M.adjugate (n + 2) = (toMatN M (n + 2)).adjugate := by
  ext i j
  show M.adjugate.get (i : Nat) (j : Nat) = (toMatN M (n + 2)).adjugate i j
  rw [Matrix.adjugate_fin_succ_eq_det_submatrix]
  rw [Polygraphia.adjugate_get M (n + 1) h (i : Nat) (j : Nat) i.isLt j.isLt]
  rw [Polygraphia.sign_eq_neg_one_pow]
  congr 1
  have hms : (M.minor (j : Nat) (i : Nat)).size = n + 1 := by
    rw [Polygraphia.minor_size, h]
    omega
  rw [Polygraphia.determinant_eq (M.minor (j : Nat) (i : Nat)) (n + 1) hms (by omega)]
  rw [Polygraphia.minor_toMat M (n + 1) h j i]

theorem Polygraphia.adjugate_data_length (M : Polygraphia.Matrix) :
    M.adjugate.data.length = M.size * M.size := by
  show ((List.range M.size).flatMap (fun col =>
    (List.range M.size).map (fun row =>
      (if (row + col) % 2 = 0 then (1 : Int) else -1) *
        (M.minor row col).determinant))).length = M.size * M.size
  rw [List.length_flatMap]
  have hmap : List.map (List.length ∘ fun col =>
      (List.range M.size).map (fun row =>
        (if (row + col) % 2 = 0 then (1 : Int) else -1) *
          (M.minor row col).determinant)) (List.range M.size) =
      List.map (fun _ => M.size) (List.range M.size) := by
    apply List.map_congr_left
    intro a _
    simp [List.length_map, List.length_range]
  rw [hmap]
  rw [List.map_const']
  rw [List.sum_replicate, List.length_range, smul_eq_mul]

theorem Polygraphia.mod_inverse_product (M : Polygraphia.Matrix) (n : Nat)
    (h : M.size = n + 2) (iv : Nat)
    (hprod : (M.determinant % 26).toNat * iv % 26 = 1) :
    castMat26 (toMatN M (n + 2)) *
      castMat26 (toMatN (Polygraphia.Matrix.mk M.size
        (M.adjugate.data.map (fun x => (x * (iv : Int)) % 26))) (n + 2)) = 1 := by
  have hlenadj : M.adjugate.data.length = M.size * M.size :=
    Polygraphia.adjugate_data_length M
  have hEntry : ∀ i j : Fin (n + 2),
      toMatN (Polygraphia.Matrix.mk M.size
        (M.adjugate.data.map (fun x => (x * (iv : Int)) % 26))) (n + 2) i j =
      (M.adjugate.get (i : Nat) (j : Nat) * (iv : Int)) % 26 := by
    intro i j
    show (M.adjugate.data.map (fun x => (x * (iv : Int)) % 26)).getD
      ((i : Nat) * M.size + (j : Nat)) 0 = _
    have hi := i.isLt
    have hj := j.isLt
    have hidx : (i : Nat) * M.size + (j : Nat) < M.adjugate.data.length := by
      rw [hlenadj, h]
      nlinarith
    rw [List.getD_eq_getElem _ _ (by rw [List.length_map]; exact hidx),
      List.getElem_map]
    have hadj : M.adjugate.get (i : Nat) (j : Nat) =
        M.adjugate.data.getD ((i : Nat) * M.size + (j : Nat)) 0 := rfl
    rw [hadj, List.getD_eq_getElem _ _ hidx]
  have hinvmat : castMat26 (toMatN (Polygraphia.Matrix.mk M.size
        (M.adjugate.data.map (fun x => (x * (iv : Int)) % 26))) (n + 2)) =
      ((iv : ZMod 26)) • castMat26 (toMatN M.adjugate (n + 2)) := by
    ext i j
    rw [Matrix.smul_apply, smul_eq_mul]
    show ((toMatN (Polygraphia.Matrix.mk M.size
      (M.adjugate.data.map (fun x => (x * (iv : Int)) % 26))) (n + 2) i j : Int) : ZMod 26) =
      (iv : ZMod 26) * ((toMatN M.adjugate (n + 2) i j : Int) : ZMod 26)
    rw [hEntry i j]
    rw [show (26 : Int) = ((26 : Nat) : Int) from rfl, ZMod.intCast_mod]
    push_cast
    rw [mul_comm]
    rfl
  rw [hinvmat]
  rw [Polygraphia.adjugate_toMat M n h]
  have hcastadj : castMat26 ((toMatN M (n + 2)).adjugate) =
      (castMat26 (toMatN M (n + 2))).adjugate := by
    show ((toMatN M (n + 2)).adjugate).map Int.cast = _
    rw [show ((toMatN M (n + 2)).adjugate).map Int.cast =
        (Int.castRingHom (ZMod 26)).mapMatrix (toMatN M (n + 2)).adjugate from by
      rw [RingHom.mapMatrix_apply]
      simp]
    rw [RingHom.map_adjugate]
    rw [RingHom.mapMatrix_apply]
    show ((toMatN M (n + 2)).map (Int.castRingHom (ZMod 26))).adjugate = _
    congr 1
  rw [hcastadj]
  rw [mul_smul_comm, Matrix.mul_adjugate, smul_smul]
  have hdetcast : (castMat26 (toMatN M (n + 2))).det =
      ((M.determinant : Int) : ZMod 26) := by
    rw [show castMat26 (toMatN M (n + 2)) =
        (Int.castRingHom (ZMod 26)).mapMatrix (toMatN M (n + 2)) from by
      rw [RingHom.mapMatrix_apply]; simp [castMat26]]
    rw [← RingHom.map_det]
    rw [← Polygraphia.determinant_eq M (n + 2) h (by omega)]
    rfl
  rw [hdetcast]
  have hone : (iv : ZMod 26) * ((M.determinant : Int) : ZMod 26) = 1 := by
    have hdnn : (0 : Int) ≤ M.determinant % 26 :=
      Int.emod_nonneg _ (by norm_num)
    have hd : (((M.determinant % 26).toNat : Nat) : Int) = M.determinant % 26 :=
      Int.toNat_of_nonneg hdnn
    have hcast1 : (((M.determinant % 26).toNat : ZMod 26)) =
        ((M.determinant : Int) : ZMod 26) := by
      have : (((M.determinant % 26).toNat : Nat) : ZMod 26) =
          (((((M.determinant % 26).toNat : Nat) : Int)) : ZMod 26) := by
        push_cast
        rfl
      rw [this, hd, show (26 : Int) = ((26 : Nat) : Int) from rfl, ZMod.intCast_mod]
    have hnat : ((((M.determinant % 26).toNat * iv) % 26 : Nat) : ZMod 26) =
        ((1 : Nat) : ZMod 26) := by rw [hprod]
    rw [ZMod.natCast_mod, Nat.cast_mul, hcast1, Nat.cast_one] at hnat
    rw [mul_comm] at hnat
    exact hnat
  rw [hone, one_smul]

/-- C3 counterexample: for the 1×1 matrix [1], `mod_inverse(26)` succeeds
(determinant 1 is coprime with 26) but returns [0] — the determinant of the
0×0 minor is computed as 0 instead of 1 — so `(key · inv) mod 26` is [0],
not the identity. -/
theorem matrix_mod_inverse_one_counterexample :
    Polygraphia.Matrix.mod_inverse ⟨1, [1]⟩ 26 = .ok ⟨1, [0]⟩ ∧
    ¬ (castMat26 (toMatN (⟨1, [1]⟩ : Polygraphia.Matrix) 1) *
        castMat26 (toMatN (⟨1, [0]⟩ : Polygraphia.Matrix) 1) = 1) := by
  constructor
  · decide
  · decide

/-- C3 (amended): `Matrix::mod_inverse(26)` fails with `InvalidKey` exactly
when the determinant reduced mod 26 is not coprime with 26; on success every
entry of the result lies in [0, 26), and for matrices of size ≥ 2 the
product `(key · inv) mod 26` is the identity — in particular for the key
matrix [[7,8],[11,11]].  (For 1×1 matrices the product identity fails; see
the counterexample.) -/
theorem matrix_mod_inverse_correct (M : Polygraphia.Matrix) :
    (Polygraphia.gcd (M.determinant % 26).toNat 26 ≠ 1 →
      Polygraphia.isInvalidKey (M.mod_inverse 26) = true) ∧
    (Polygraphia.gcd (M.determinant % 26).toNat 26 = 1 →
      ∃ inv, M.mod_inverse 26 = .ok inv ∧ inv.size = M.size ∧
        (∀ x ∈ inv.data, 0 ≤ x ∧ x < 26) ∧
        (2 ≤ M.size →
          castMat26 (toMatN M M.size) * castMat26 (toMatN inv M.size) = 1)) := by
  constructor
  · intro h
    unfold Polygraphia.Matrix.mod_inverse
    dsimp only
    rw [if_pos (by simpa using h)]
    rfl
  · intro h
    obtain ⟨iv, hiv, hiv1, hivlt, hivprod, _⟩ :=
      Polygraphia.mod_inverse_ok (M.determinant % 26).toNat 26 h (by norm_num)
    have hres : M.mod_inverse 26 = .ok (Polygraphia.Matrix.mk M.size
        (M.adjugate.data.map (fun x => (x * (iv : Int)) % 26))) := by
      unfold Polygraphia.Matrix.mod_inverse
      dsimp only
      rw [if_neg (by simpa using h)]
      rw [show ((26 : Int)).toNat = 26 from rfl, hiv]
      dsimp only
      unfold Polygraphia.Matrix.new
      rw [if_neg (by
        simp [List.length_map, Polygraphia.adjugate_data_length])]
    refine ⟨_, hres, rfl, ?_, ?_⟩
    · intro x hx
      obtain ⟨a, _, rfl⟩ := List.mem_map.mp hx
      exact ⟨Int.emod_nonneg _ (by norm_num), Int.emod_lt_of_pos _ (by norm_num)⟩
    · intro hsz
      obtain ⟨n, hn⟩ : ∃ n, M.size = n + 2 := ⟨M.size - 2, by omega⟩
      have hp := Polygraphia.mod_inverse_product M n hn iv hivprod
      rw [hn] at hp ⊢
      exact hp

/-- Witness for `matrix_mod_inverse_correct` at the key matrix
[[7,8],[11,11]]. -/
theorem matrix_mod_inverse_correct_witness :
    Polygraphia.gcd (((Polygraphia.Matrix.mk 2 [7, 8, 11, 11]).determinant % 26)).toNat 26 = 1 ∧
    (∃ inv, (Polygraphia.Matrix.mk 2 [7, 8, 11, 11]).mod_inverse 26 = .ok inv ∧
      inv.size = (Polygraphia.Matrix.mk 2 [7, 8, 11, 11]).size ∧
      (∀ x ∈ inv.data, 0 ≤ x ∧ x < 26) ∧
      (2 ≤ (Polygraphia.Matrix.mk 2 [7, 8, 11, 11]).size →
        castMat26 (toMatN (Polygraphia.Matrix.mk 2 [7, 8, 11, 11])
            (Polygraphia.Matrix.mk 2 [7, 8, 11, 11]).size) *
          castMat26 (toMatN inv (Polygraphia.Matrix.mk 2 [7, 8, 11, 11]).size) = 1)) :=
  ⟨by decide,
    (matrix_mod_inverse_correct (Polygraphia.Matrix.mk 2 [7, 8, 11, 11])).2 (by decide)⟩
